import Mathlib

/-!
Verification of the Thucydides daily-reader core against its source.

Strings are modelled as `List Char`. The whitespace predicate covers the six
ASCII whitespace characters recognized by both Python's `str.strip` / `str.split`
and the regex class `\s` (Unicode whitespace beyond ASCII is outside the model).

Part 1 embeds the chunker (`src/parser.py`: `roman_to_int`,
`split_into_paragraphs`, `create_chunks`, `_finalize_chunk`; `src/utils.py`:
`clean_text`, `estimate_word_count`, `get_next_chunk_to_publish`).
Part 2 embeds the JSON recoverer (`fill_gaps_improved.py`:
`clean_json_response`; `fill_gaps_nuclear.py`: `fix_json_delimiters`,
`nuclear_json_clean`, `manual_json_repair`, `enrich_with_nuclear_option`)
together with a strict JSON parser modelling `json.loads`.
-/

/-- Characters avoided as direct literals (so they can be used in code freely). -/
def dquoteChar : Char := Char.ofNat 34

def backslashChar : Char := Char.ofNat 92

def backtickChar : Char := Char.ofNat 96

def lbraceChar : Char := Char.ofNat 123

def rbraceChar : Char := Char.ofNat 125

/-- The six ASCII whitespace characters: space, tab, newline, carriage return,
vertical tab, form feed.  This is the ASCII part of Python's `str.isspace`,
of `str.strip`/`str.split` with no argument, and of the regex class `\s`. -/
def is_space (c : Char) : Bool :=
  c = ' ' ∨ c = '\t' ∨ c = '\n' ∨ c = '\r' ∨ c = Char.ofNat 11 ∨ c = Char.ofNat 12

/-- Drop a trailing run of characters satisfying `p` (helper for `str.strip`). -/
def dropTrailing (p : Char → Bool) (l : List Char) : List Char :=
  (l.reverse.dropWhile p).reverse

/-- Python `str.strip()` (ASCII whitespace). -/
def pyStrip (l : List Char) : List Char :=
  dropTrailing is_space (l.dropWhile is_space)

/-- Helper for `pyWords`: `acc` holds the reversed word currently being read. -/
def pyWordsAux : List Char → List Char → List (List Char)
  | [], acc => if acc = [] then [] else [acc.reverse]
  | c :: r, acc =>
    if is_space c then
      if acc = [] then pyWordsAux r [] else acc.reverse :: pyWordsAux r []
    else pyWordsAux r (c :: acc)

/-- Python `str.split()` with no argument: maximal runs of non-whitespace. -/
def pyWords (l : List Char) : List (List Char) :=
  pyWordsAux l []

/-- Python `str.replace(old, new)`: non-overlapping, left to right.  All call
sites in the source use a non-empty `old`; the `old = []` case returns the
input unchanged. -/
def replaceStrAux : Nat → List Char → List Char → List Char → List Char
  | 0, l, _, _ => l
  | _, [], _, _ => []
  | _, l, [], _ => l
  | f + 1, c :: r, o :: os, new =>
    if (o :: os).isPrefixOf (c :: r) then
      new ++ replaceStrAux f ((c :: r).drop (o :: os).length) (o :: os) new
    else
      c :: replaceStrAux f r (o :: os) new

/-- Python `str.replace(old, new)`: non-overlapping, left to right.  The fuel
(one unit per input character) makes the recursion structural; each step
consumes at least one character, so `l.length` fuel always suffices.  All
call sites in the source use a non-empty `old`; the `old = []` case returns
the input unchanged. -/
def replaceStr (l old new : List Char) : List Char :=
  replaceStrAux l.length l old new

/-- `utils.clean_text`: whitespace-normalize by splitting and rejoining with
single spaces, apply the fixed replacement table in order, then strip. -/
def clean_text (l : List Char) : List Char :=
  let joined := List.intercalate [' '] (pyWords l)
  let t1 := replaceStr joined [' ', ','] [',']
  let t2 := replaceStr t1 [' ', '.'] ['.']
  let t3 := replaceStr t2 [' ', ';'] [';']
  let t4 := replaceStr t3 [' ', ':'] [':']
  let t5 := replaceStr t4 ['(', ' '] ['(']
  let t6 := replaceStr t5 [' ', ')'] [')']
  let t7 := replaceStr t6 [' ', ' '] [' ']
  pyStrip t7

/-- `utils.estimate_word_count`: `len(text.split())`. -/
def estimate_word_count (l : List Char) : Nat :=
  (pyWords l).length

/-- Index (within `w`) of the last newline of `w`; meaningful when `'\n' ∈ w`.
Used to model the greedy match of `\n\s*\n`. -/
def lastNewlineIdx (w : List Char) : Nat :=
  w.length - 1 - (w.reverse.takeWhile (fun c => c ≠ '\n')).length

def regexSplitParasAux : Nat → List Char → List (List Char)
  | 0, _ => [[]]
  | _, [] => [[]]
  | f + 1, c :: r =>
    if c = '\n' then
      let w := r.takeWhile is_space
      if '\n' ∈ w then
        [] :: regexSplitParasAux f (r.drop (lastNewlineIdx w + 1))
      else
        match regexSplitParasAux f r with
        | [] => [[c]]
        | h :: t => (c :: h) :: t
    else
      match regexSplitParasAux f r with
      | [] => [[c]]
      | h :: t => (c :: h) :: t

/-- `re.split(r'\n\s*\n', text)`: at the first newline of a whitespace run
containing at least two newlines, the (greedy) match extends to the last
newline of that run.  Fuel (one unit per consumed character) makes the
recursion structural; `l.length` always suffices. -/
def regexSplitParas (l : List Char) : List (List Char) :=
  regexSplitParasAux l.length l

/-- `parser.split_into_paragraphs`: split on blank-line boundaries, keep
paragraphs that are non-empty after stripping, and clean each. -/
def split_into_paragraphs (text : List Char) : List (List Char) :=
  ((regexSplitParas text).filter (fun p => pyStrip p ≠ [])).map clean_text

/-- `parser.roman_to_int`'s symbol table (`roman_map.get(char, 0)`). -/
def roman_map (c : Char) : Int :=
  if c = 'I' then 1
  else if c = 'V' then 5
  else if c = 'X' then 10
  else if c = 'L' then 50
  else if c = 'C' then 100
  else if c = 'D' then 500
  else if c = 'M' then 1000
  else 0

/-- `parser.roman_to_int`: scan the numeral right to left, subtracting a
symbol strictly smaller than the value seen immediately to its right and
adding otherwise. -/
def roman_to_int (s : List Char) : Int :=
  (s.reverse.foldl
    (fun (acc : Int × Int) c =>
      let v := roman_map c
      if v < acc.2 then (acc.1 - v, v) else (acc.1 + v, v))
    (0, 0)).1

/-- Is `c` one of the Roman-numeral symbols `[IVXLCDM]`? -/
def isRomanChar (c : Char) : Bool :=
  c = 'I' ∨ c = 'V' ∨ c = 'X' ∨ c = 'L' ∨ c = 'C' ∨ c = 'D' ∨ c = 'M'

/-- Model of `re.match(kw + r'\s+([IVXLCDM]+)', para.strip())`: the stripped
paragraph must start with `kw`, then at least one whitespace character, then at
least one Roman symbol; the returned group is the maximal Roman-symbol run. -/
def marker_numeral (kw : List Char) (p : List Char) : Option (List Char) :=
  let s := pyStrip p
  if kw.isPrefixOf s then
    let r := s.drop kw.length
    let w := r.takeWhile is_space
    if w = [] then none
    else
      let r2 := r.drop w.length
      let nm := r2.takeWhile isRomanChar
      if nm = [] then none else some nm
  else none

/-- The `BOOK <roman>` marker test/extraction of `create_chunks`. -/
def book_marker_numeral (p : List Char) : Option (List Char) :=
  marker_numeral ['B', 'O', 'O', 'K'] p

/-- The `CHAPTER <roman>` marker test/extraction of `create_chunks`. -/
def chapter_marker_numeral (p : List Char) : Option (List Char) :=
  marker_numeral ['C', 'H', 'A', 'P', 'T', 'E', 'R'] p

/-- A paragraph that is neither a book marker nor a chapter marker. -/
def ordinaryPara (p : List Char) : Bool :=
  (book_marker_numeral p).isNone && (chapter_marker_numeral p).isNone

/-- Python `'\n\n'.join` and friends. -/
def joinSep (sep : List Char) : List (List Char) → List Char
  | [] => []
  | [x] => x
  | x :: y :: t => x ++ sep ++ joinSep sep (y :: t)

/-- One emitted passage (`parser._finalize_chunk`'s dictionary).  The
`paragraphs` field retains the list of paragraphs that were joined to form
`original_text`; the source keeps only the joined text, the other fields match
the source's keys. -/
structure Chunk where
  chunk_index : Nat
  book : Int
  chapter : Int
  paragraphs : List (List Char)
  original_text : List Char
  character_count : Nat
  word_count : Nat
  paragraph_count : Nat
deriving DecidableEq, Repr

/-- `parser._finalize_chunk`: join the accumulated paragraphs with a blank
line and record the derived metrics. -/
def _finalize_chunk (paragraphs : List (List Char)) (book chapter : Int)
    (index : Nat) : Chunk :=
  let text := joinSep ['\n', '\n'] paragraphs
  { chunk_index := index
    book := book
    chapter := chapter
    paragraphs := paragraphs
    original_text := text
    character_count := text.length
    word_count := estimate_word_count text
    paragraph_count := paragraphs.length }

/-- The `target_chunk_size` / `min_chunk_size` / `max_chunk_size` parsing
configuration read by `create_chunks`. -/
structure ParsingConfig where
  target_size : Nat
  min_size : Nat
  max_size : Nat
deriving DecidableEq, Repr

/-- The mutable loop state of `create_chunks`: emitted chunks, the accumulator
of pending paragraphs with its running character total, and the current
book/chapter context. -/
structure ChunkState where
  chunks : List Chunk
  current_chunk : List (List Char)
  current_size : Nat
  current_book : Int
  current_chapter : Int
deriving DecidableEq, Repr

/-- Flush the accumulator as a new chunk (`chunks.append(self._finalize_chunk(
current_chunk, current_book, current_chapter, len(chunks)))` followed by the
accumulator reset). -/
def flushState (st : ChunkState) : ChunkState :=
  { st with
    chunks := st.chunks ++
      [_finalize_chunk st.current_chunk st.current_book st.current_chapter
        st.chunks.length]
    current_chunk := []
    current_size := 0 }

/-- The initial loop state of `create_chunks` (book and chapter default to 1). -/
def initState : ChunkState :=
  { chunks := []
    current_chunk := []
    current_size := 0
    current_book := 1
    current_chapter := 1 }

/-- The body of `create_chunks`' paragraph loop.  A book marker flushes a
non-empty accumulator and updates the book number (the chapter number is left
unchanged).  A chapter marker flushes only when the accumulator is non-empty
and already meets `min_size`, then updates the chapter number.  An ordinary
paragraph follows the three size branches of the source. -/
def stepPara (cfg : ParsingConfig) (st : ChunkState) (para : List Char) :
    ChunkState :=
  match book_marker_numeral para with
  | some nm =>
    let st1 := if st.current_chunk = [] then st else flushState st
    { st1 with current_book := roman_to_int nm }
  | none =>
    match chapter_marker_numeral para with
    | some nm =>
      let st1 :=
        if st.current_chunk ≠ [] ∧ cfg.min_size ≤ st.current_size then
          flushState st
        else st
      { st1 with current_chapter := roman_to_int nm }
    | none =>
      if cfg.max_size < st.current_size + para.length ∧ st.current_chunk ≠ [] then
        { flushState st with current_chunk := [para], current_size := para.length }
      else if cfg.target_size ≤ st.current_size + para.length ∧
          cfg.min_size ≤ st.current_size then
        flushState { st with current_chunk := st.current_chunk ++ [para] }
      else
        { st with
          current_chunk := st.current_chunk ++ [para]
          current_size := st.current_size + para.length }

/-- The final flush after the loop of `create_chunks`: a non-empty
accumulator is emitted as a last chunk. -/
def finishState (st : ChunkState) : List Chunk :=
  (if st.current_chunk = [] then st else flushState st).chunks

/-- The chunking loop of `create_chunks` applied to an explicit paragraph
list, including the final flush of a non-empty accumulator. -/
def chunk_paragraphs (cfg : ParsingConfig) (paras : List (List Char)) :
    List Chunk :=
  finishState (paras.foldl (stepPara cfg) initState)

/-- `parser.create_chunks`: split the text into cleaned paragraphs and run the
chunking loop.  (The source also calls `identify_structure`, whose result is
never used by the loop.) -/
def create_chunks (cfg : ParsingConfig) (text : List Char) : List Chunk :=
  chunk_paragraphs cfg (split_into_paragraphs text)

/-- The scan of `create_chunks` restricted to book/chapter context: the book
number carried along the paragraph list, pairing each ordinary paragraph with
the book in effect when the loop reaches it. -/
def paras_with_books (b : Int) : List (List Char) → List (List Char × Int)
  | [] => []
  | p :: rest =>
    match book_marker_numeral p with
    | some nm => paras_with_books (roman_to_int nm) rest
    | none =>
      match chapter_marker_numeral p with
      | some _ => paras_with_books b rest
      | none => (p, b) :: paras_with_books b rest

/-- Sum of the paragraph lengths of a chunk (the quantity tracked by
`current_size`; it excludes the joining blank lines). -/
def sumLens (ps : List (List Char)) : Nat :=
  (ps.map List.length).sum

/-- Outcome of reading `data/published/log.json` in
`utils.get_next_chunk_to_publish`: the file may be absent, the read/parse may
raise (any exception), or it yields the list of `chunk_index` values of the
`published` entries. -/
inductive PublishedLogRead where
  | absent
  | readError
  | ok (indices : List Int)
deriving DecidableEq, Repr

/-- Python `max` over a non-empty list, folded left. -/
def pyMax : Int → List Int → Int
  | x, [] => x
  | x, y :: ys => pyMax (max x y) ys

/-- `utils.get_next_chunk_to_publish`: 0 when the log file is absent, when the
published list is empty, or when reading raises; otherwise the maximum
published `chunk_index` plus one. -/
def get_next_chunk_to_publish : PublishedLogRead → Int
  | .absent => 0
  | .readError => 0
  | .ok [] => 0
  | .ok (i :: rest) => pyMax i rest + 1

/-- JSON whitespace (RFC 8259): space, tab, newline, carriage return. -/
def isJsonWs (c : Char) : Bool :=
  c = ' ' ∨ c = '\t' ∨ c = '\n' ∨ c = '\r'

/-- Skip JSON whitespace. -/
def skipWs (l : List Char) : List Char :=
  l.dropWhile isJsonWs

/-- JSON values.  Numbers keep their source token (their literal characters);
strings hold the decoded character sequence. -/
inductive Json where
  | null
  | bool (b : Bool)
  | num (lit : List Char)
  | str (s : List Char)
  | arr (elems : List Json)
  | obj (members : List (List Char × Json))
deriving Repr

def isHexChar (c : Char) : Bool :=
  c.isDigit ∨ ('a' ≤ c ∧ c ≤ 'f') ∨ ('A' ≤ c ∧ c ≤ 'F')

def hexCharVal (c : Char) : Nat :=
  if c.isDigit then c.toNat - 48
  else if 'a' ≤ c ∧ c ≤ 'f' then c.toNat - 87
  else c.toNat - 55

/-- Decoded character for a single-letter JSON escape. -/
def jsonEscDecode (e : Char) : Char :=
  if e = 'b' then Char.ofNat 8
  else if e = 'f' then Char.ofNat 12
  else if e = 'n' then '\n'
  else if e = 'r' then '\r'
  else if e = 't' then '\t'
  else e

/-- Strict JSON string body (after the opening quote): unescaped quote ends
the string, the eight single-character escapes and `\uXXXX` are decoded,
unescaped control characters are rejected.  Returns the decoded body and the
input after the closing quote. -/
def scan_json_string : List Char → Option (List Char × List Char)
  | [] => none
  | c :: r =>
    if c = dquoteChar then some ([], r)
    else if c = backslashChar then
      match r with
      | [] => none
      | e :: r2 =>
        if e = 'u' then
          match r2 with
          | h1 :: h2 :: h3 :: h4 :: r3 =>
            if isHexChar h1 ∧ isHexChar h2 ∧ isHexChar h3 ∧ isHexChar h4 then
              match scan_json_string r3 with
              | some (s, rest) =>
                some (Char.ofNat
                  (((hexCharVal h1 * 16 + hexCharVal h2) * 16 + hexCharVal h3) * 16
                    + hexCharVal h4) :: s, rest)
              | none => none
            else none
          | _ => none
        else if e = dquoteChar ∨ e = backslashChar ∨ e = '/' ∨ e = 'b' ∨ e = 'f' ∨
            e = 'n' ∨ e = 'r' ∨ e = 't' then
          match scan_json_string r2 with
          | some (s, rest) => some (jsonEscDecode e :: s, rest)
          | none => none
        else none
    else if c.toNat < 32 then none
    else
      match scan_json_string r with
      | some (s, rest) => some (c :: s, rest)
      | none => none

/-- Length of the JSON number token at the head of `l` (0 when there is
none), per the strict grammar `-?(0|[1-9][0-9]*)(\.[0-9]+)?([eE][+-]?[0-9]+)?`
with maximal munch on the optional parts. -/
def numberTokenLength (l : List Char) : Nat :=
  let sr : Nat × List Char :=
    match l with
    | '-' :: r => (1, r)
    | _ => (0, l)
  let ilen : Nat :=
    match sr.2 with
    | '0' :: _ => 1
    | c :: _ => if c.isDigit then (sr.2.takeWhile Char.isDigit).length else 0
    | [] => 0
  if ilen = 0 then 0
  else
    let r2 := sr.2.drop ilen
    let flen : Nat :=
      match r2 with
      | '.' :: r3 =>
        let d := (r3.takeWhile Char.isDigit).length
        if d = 0 then 0 else 1 + d
      | _ => 0
    let r4 := r2.drop flen
    let elen : Nat :=
      match r4 with
      | c :: r5 =>
        if c = 'e' ∨ c = 'E' then
          let sr2 : Nat × List Char :=
            match r5 with
            | '+' :: r6 => (1, r6)
            | '-' :: r6 => (1, r6)
            | _ => (0, r5)
          let d := (sr2.2.takeWhile Char.isDigit).length
          if d = 0 then 0 else 1 + sr2.1 + d
        else 0
      | [] => 0
    sr.1 + ilen + flen + elen

/-- Parse a JSON number token; the value keeps the token's characters. -/
def parseNumber (l : List Char) : Option (Json × List Char) :=
  let n := numberTokenLength l
  if n = 0 then none else some (.num (l.take n), l.drop n)

/-- What the recursive JSON parser is asked to produce: a single value, the
elements of a non-empty array, or the members of a non-empty object. -/
inductive JMode where
  | value
  | elems
  | members
deriving DecidableEq, Repr

/-- Result of one recursive JSON parse. -/
inductive JOut where
  | val (v : Json)
  | elemsOut (vs : List Json)
  | membersOut (ms : List (List Char × Json))
deriving Repr

/-- Strict JSON parser (fuel-indexed, structural on fuel), mirroring
`json.loads`' grammar: `null`/`true`/`false`, strings, numbers, arrays and
objects, with JSON whitespace between tokens.  `JMode.elems` parses the
element list of a non-empty array after `[` (leading whitespace already
skipped), `JMode.members` the member list of a non-empty object after the
opening brace. -/
def parseRun : Nat → JMode → List Char → Option (JOut × List Char)
  | 0, _, _ => none
  | f + 1, .value, l =>
    match l with
    | 'n' :: 'u' :: 'l' :: 'l' :: r => some (.val .null, r)
    | 't' :: 'r' :: 'u' :: 'e' :: r => some (.val (.bool true), r)
    | 'f' :: 'a' :: 'l' :: 's' :: 'e' :: r => some (.val (.bool false), r)
    | [] => none
    | c :: r =>
      if c = dquoteChar then
        match scan_json_string r with
        | some (s, rest) => some (.val (.str s), rest)
        | none => none
      else if c = '[' then
        match skipWs r with
        | ']' :: rest => some (.val (.arr []), rest)
        | r1 =>
          match parseRun f .elems r1 with
          | some (.elemsOut vs, rest) => some (.val (.arr vs), rest)
          | _ => none
      else if c = lbraceChar then
        let r1 := skipWs r
        match r1 with
        | [] => none
        | d :: rest =>
          if d = rbraceChar then some (.val (.obj []), rest)
          else
            match parseRun f .members r1 with
            | some (.membersOut ms, rest2) => some (.val (.obj ms), rest2)
            | _ => none
      else
        match parseNumber (c :: r) with
        | some (v, rest) => some (.val v, rest)
        | none => none
  | f + 1, .elems, l =>
    match parseRun f .value l with
    | some (.val v, r) =>
      match skipWs r with
      | ',' :: r2 =>
        match parseRun f .elems (skipWs r2) with
        | some (.elemsOut vs, rest) => some (.elemsOut (v :: vs), rest)
        | _ => none
      | ']' :: r2 => some (.elemsOut [v], r2)
      | _ => none
    | _ => none
  | f + 1, .members, l =>
    match l with
    | [] => none
    | c :: r =>
      if c = dquoteChar then
        match scan_json_string r with
        | some (k, r1) =>
          match skipWs r1 with
          | ':' :: r2 =>
            match parseRun f .value (skipWs r2) with
            | some (.val v, r3) =>
              match skipWs r3 with
              | [] => none
              | d :: r4 =>
                if d = ',' then
                  match parseRun f .members (skipWs r4) with
                  | some (.membersOut ms, rest) => some (.membersOut ((k, v) :: ms), rest)
                  | _ => none
                else if d = rbraceChar then some (.membersOut [(k, v)], r4)
                else none
            | _ => none
          | _ => none
        | none => none
      else none

/-- Strip JSON whitespace from both ends (what `json.loads` tolerates around
the single top-level value). -/
def jsonStripEnds (l : List Char) : List Char :=
  dropTrailing isJsonWs (l.dropWhile isJsonWs)

/-- Model of `json.loads` restricted to success/failure and the parsed value:
whitespace around the document is ignored and the value must span the whole
rest of the input. -/
def json_loads (s : List Char) : Option Json :=
  let t := jsonStripEnds s
  match parseRun (2 * t.length + 2) .value t with
  | some (.val v, []) => some v
  | _ => none

/-- Match a literal character sequence, returning the rest of the input. -/
def dropLit : List Char → List Char → Option (List Char)
  | [], l => some l
  | _ :: _, [] => none
  | p :: ps, c :: cs => if p = c then dropLit ps cs else none

/-- `re.sub(r'^```(?:json)?\s*\n?', '', text)`: a leading code-fence marker,
an optional `json` tag and the following whitespace are removed (the greedy
`\s*` absorbs the newline as well). -/
def leadingFenceSub (l : List Char) : List Char :=
  match dropLit [backtickChar, backtickChar, backtickChar] l with
  | none => l
  | some r =>
    let r1 :=
      match dropLit ['j', 's', 'o', 'n'] r with
      | some r2 => r2
      | none => r
    r1.dropWhile is_space

/-- `re.sub(r'\n?```\s*$', '', text)`: a trailing code-fence marker (with
optional preceding newline and trailing whitespace) is removed. -/
def trailingFenceSub (l : List Char) : List Char :=
  let rev := l.reverse
  let core := rev.dropWhile is_space
  match dropLit [backtickChar, backtickChar, backtickChar] core with
  | none => l
  | some rest =>
    match rest with
    | c :: rest2 => if c = '\n' then rest2.reverse else rest.reverse
    | [] => []

def firstIdxOf (c : Char) (l : List Char) : Option Nat :=
  l.findIdx? (fun d => d = c)

def lastIdxOf (c : Char) (l : List Char) : Option Nat :=
  match l.reverse.findIdx? (fun d => d = c) with
  | some j => some (l.length - 1 - j)
  | none => none

/-- `fill_gaps_improved.clean_json_response`'s brace-boundary extraction:
`text.find('{')` / `text.rfind('}')`, sliced only when both are found and the
opening brace is not at position 0. -/
def braceSlice (l : List Char) : List Char :=
  match firstIdxOf lbraceChar l, lastIdxOf rbraceChar l with
  | some s, some e => if 0 < s then (l.drop s).take (e + 1 - s) else l
  | _, _ => l

/-- `fill_gaps_nuclear.nuclear_json_clean`'s brace-boundary extraction:
sliced whenever both braces are found (no position-0 condition). -/
def braceSliceNuclear (l : List Char) : List Char :=
  match firstIdxOf lbraceChar l, lastIdxOf rbraceChar l with
  | some s, some e => (l.drop s).take (e + 1 - s)
  | _, _ => l

/-- `re.sub(r',(\s*[}\]])', r'\\1', text)` as written in
`fill_gaps_improved.py` line 35: because the replacement is the raw string
`\\1` (backslash, backslash, one), each match — a comma, optional whitespace
and a closing brace/bracket — is replaced by the two literal characters
backslash and `1`, not by the captured group.  Scanning resumes after the
match.  Fuel makes the recursion structural; `l.length` always suffices. -/
def commaSubBuggyAux : Nat → List Char → List Char
  | 0, l => l
  | _, [] => []
  | f + 1, c :: r =>
    if c = ',' then
      let w := r.takeWhile is_space
      match r.drop w.length with
      | d :: r2 =>
        if d = rbraceChar ∨ d = ']' then
          backslashChar :: '1' :: commaSubBuggyAux f r2
        else c :: commaSubBuggyAux f r
      | [] => c :: commaSubBuggyAux f r
    else c :: commaSubBuggyAux f r

def commaSubBuggy (l : List Char) : List Char :=
  commaSubBuggyAux l.length l

/-- `re.sub(r',(\s*[}\]])', r'\1', text)` as written in
`fill_gaps_nuclear.py` line 20: the comma is removed and the captured
whitespace and closing brace/bracket are kept.  Scanning resumes after the
match. -/
def commaSubCorrectAux : Nat → List Char → List Char
  | 0, l => l
  | _, [] => []
  | f + 1, c :: r =>
    if c = ',' then
      let w := r.takeWhile is_space
      match r.drop w.length with
      | d :: r2 =>
        if d = rbraceChar ∨ d = ']' then
          (w ++ [d]) ++ commaSubCorrectAux f r2
        else c :: commaSubCorrectAux f r
      | [] => c :: commaSubCorrectAux f r
    else c :: commaSubCorrectAux f r

def commaSubCorrect (l : List Char) : List Char :=
  commaSubCorrectAux l.length l

/-- The three missing-comma insertions of `fix_json_delimiters`
(`a\s*\n\s*b` with a newline in the whitespace gap becomes `a,\nb`);
scanning resumes after the match. -/
def bridgeSubAux (a b : Char) : Nat → List Char → List Char
  | 0, l => l
  | _, [] => []
  | f + 1, c :: r =>
    if c = a then
      let w := r.takeWhile is_space
      match r.drop w.length with
      | d :: r2 =>
        if d = b ∧ '\n' ∈ w then
          a :: ',' :: '\n' :: b :: bridgeSubAux a b f r2
        else c :: bridgeSubAux a b f r
      | [] => c :: bridgeSubAux a b f r
    else c :: bridgeSubAux a b f r

def bridgeSub (a b : Char) (l : List Char) : List Char :=
  bridgeSubAux a b l.length l

/-- Characters removed by `nuclear_json_clean`'s control-character strip
(`[\x00-\x08\x0B-\x0C\x0E-\x1F\x7F]`). -/
def isStrippedControl (c : Char) : Bool :=
  c.toNat ≤ 8 ∨ (11 ≤ c.toNat ∧ c.toNat ≤ 12) ∨ (14 ≤ c.toNat ∧ c.toNat ≤ 31) ∨
    c.toNat = 127

def controlCharStrip (l : List Char) : List Char :=
  l.filter (fun c => ¬ isStrippedControl c)

/-- `fill_gaps_improved.clean_json_response` (tier 1): strip, remove fences,
strip again, brace-slice (only when the opening brace is past position 0),
then the trailing-comma substitution with the buggy `\\1` replacement. -/
def clean_json_response (text : List Char) : List Char :=
  let t1 := pyStrip text
  let t2 := trailingFenceSub (leadingFenceSub t1)
  let t3 := pyStrip t2
  commaSubBuggy (braceSlice t3)

/-- `fill_gaps_nuclear.fix_json_delimiters`: trailing-comma removal followed
by the three missing-comma insertions, in source order. -/
def fix_json_delimiters (l : List Char) : List Char :=
  bridgeSub ']' '[' (bridgeSub rbraceChar dquoteChar
    (bridgeSub dquoteChar dquoteChar (commaSubCorrect l)))

/-- `fill_gaps_nuclear.nuclear_json_clean`: strip, remove fences, brace-slice
(no position condition), fix delimiters, strip control characters. -/
def nuclear_json_clean (text : List Char) : List Char :=
  let t1 := pyStrip text
  let t2 := trailingFenceSub (leadingFenceSub t1)
  let t3 := braceSliceNuclear t2
  controlCharStrip (fix_json_delimiters t3)

/-- The group `((?:[^"\\]|\\.)*)` followed by a closing quote: the raw
matched text (escape pairs kept verbatim) and the input after the quote. -/
def scan_field_string : List Char → Option (List Char × List Char)
  | [] => none
  | c :: r =>
    if c = dquoteChar then some ([], r)
    else if c = backslashChar then
      match r with
      | [] => none
      | e :: r2 =>
        match scan_field_string r2 with
        | some (s, rest) => some (c :: e :: s, rest)
        | none => none
    else
      match scan_field_string r with
      | some (s, rest) => some (c :: s, rest)
      | none => none

/-- Attempt of `re.search(r'"<key>"\s*:\s*"((?:[^"\\]|\\.)*)"\s*,', text)`
at one position: the quoted key, optional whitespace, a colon, optional
whitespace, a quoted value and a following comma. -/
def field_match_at (key : List Char) (l : List Char) : Option (List Char) :=
  match dropLit (dquoteChar :: key ++ [dquoteChar]) l with
  | none => none
  | some r =>
    match r.dropWhile is_space with
    | ':' :: r2 =>
      match r2.dropWhile is_space with
      | [] => none
      | q :: r3 =>
        if q = dquoteChar then
          match scan_field_string r3 with
          | some (content, r4) =>
            match r4.dropWhile is_space with
            | ',' :: _ => some content
            | _ => none
          | none => none
        else none
    | _ => none

/-- Leftmost search for the quoted-string field pattern. -/
def field_search (key : List Char) : List Char → Option (List Char)
  | [] => none
  | c :: r =>
    match field_match_at key (c :: r) with
    | some v => some v
    | none => field_search key r

/-- Attempt of `re.search(r'"key_themes"\s*:\s*\[(.*?)\]', text, re.DOTALL)`
at one position; the non-greedy group ends at the first closing bracket. -/
def themes_match_at (l : List Char) : Option (List Char) :=
  match dropLit (dquoteChar :: ("key_themes".data ++ [dquoteChar])) l with
  | none => none
  | some r =>
    match r.dropWhile is_space with
    | ':' :: r2 =>
      match r2.dropWhile is_space with
      | '[' :: r3 =>
        if ']' ∈ r3 then some (r3.takeWhile (fun d => d ≠ ']')) else none
      | _ => none
    | _ => none

/-- Leftmost search for the themes-array pattern. -/
def themes_search : List Char → Option (List Char)
  | [] => none
  | c :: r =>
    match themes_match_at (c :: r) with
    | some v => some v
    | none => themes_search r

/-- `re.findall(r'"([^"]*)"', text)`: all non-overlapping quoted segments. -/
def findall_quotedAux : Nat → List Char → List (List Char)
  | 0, _ => []
  | _, [] => []
  | f + 1, c :: r =>
    if c = dquoteChar then
      let seg := r.takeWhile (fun d => d ≠ dquoteChar)
      match r.drop seg.length with
      | d :: r2 =>
        if d = dquoteChar then seg :: findall_quotedAux f r2 else findall_quotedAux f r
      | [] => []
    else findall_quotedAux f r

def findall_quoted (l : List Char) : List (List Char) :=
  findall_quotedAux l.length l

/-- The un-escaping applied to scraped string fields:
`.replace('\\"', '"').replace('\\n', '\n')`. -/
def unescape_field (v : List Char) : List Char :=
  replaceStr (replaceStr v [backslashChar, dquoteChar] [dquoteChar])
    [backslashChar, 'n'] ['\n']

def mtKey : List Char := "modern_translation".data

def ctxKey : List Char := "context".data

def ktKey : List Char := "key_themes".data

/-- A value salvaged by the manual field scrape: a string field or the
theme-list array. -/
inductive SalvagedVal where
  | strVal (v : List Char)
  | themesVal (vs : List (List Char))
deriving DecidableEq, Repr

/-- `fill_gaps_nuclear.manual_json_repair`: scrape the three target fields
independently; return the collected mapping only when at least two of the
three fields were found, otherwise fail (`None`). -/
def manual_json_repair (text : List Char) :
    Option (List (List Char × SalvagedVal)) :=
  let r0 : List (List Char × SalvagedVal) := []
  let r1 :=
    match field_search mtKey text with
    | some raw => r0 ++ [(mtKey, .strVal (unescape_field raw))]
    | none => r0
  let r2 :=
    match field_search ctxKey text with
    | some raw => r1 ++ [(ctxKey, .strVal (unescape_field raw))]
    | none => r1
  let r3 : List (List Char × SalvagedVal) :=
    match themes_search text with
    | some inner => r2 ++ [(ktKey, .themesVal (findall_quoted inner))]
    | none => r2
  if 2 ≤ r3.length then some r3 else none

/-- Outcome of `fill_gaps_nuclear.enrich_with_nuclear_option` for one
response: a full record (strategy 1), a salvaged record stored with
`enrichment_status = 'partial'` (strategy 2), or failure. -/
inductive NuclearOutcome where
  | fullRecord (j : Json)
  | salvagedRecord (fields : List (List Char × SalvagedVal))
  | failed

/-- `fill_gaps_nuclear.enrich_with_nuclear_option`, abstracted over the API
call: strategy 1 parses the nuclear-cleaned response; on parse failure
strategy 2 scrapes fields manually, and only that path tags the stored chunk
as degraded. -/
def enrich_with_nuclear_option (response : List Char) : NuclearOutcome :=
  match json_loads (nuclear_json_clean response) with
  | some j => .fullRecord j
  | none =>
    match manual_json_repair response with
    | some fields => .salvagedRecord fields
    | none => .failed

/-- Does the text contain a comma followed by optional whitespace and a
closing brace or bracket (the pattern `,\s*[}\]]`)? -/
def hasCommaClose : List Char → Bool
  | [] => false
  | c :: r =>
    if c = ',' then
      let w := r.takeWhile is_space
      match r.drop w.length with
      | d :: _ =>
        if d = rbraceChar ∨ d = ']' then true
        else hasCommaClose r
      | [] => hasCommaClose r
    else hasCommaClose r


/-- A small concrete input for the size-bound analysis: paragraphs of
lengths 2, 3 and 1 with target 4, minimum 2, maximum 6. -/
def sampleCfg : ParsingConfig := ⟨4, 2, 6⟩

def sampleText : List Char := ("ab\n\ncde\n\nx").data

/-- The first chunk `create_chunks sampleCfg sampleText` emits: the
paragraphs "ab" and "cde" joined by a blank line (7 characters). -/
def sampleChunk : Chunk :=
  ⟨0, 1, 1, [['a', 'b'], ['c', 'd', 'e']], ['a', 'b', '\n', '\n', 'c', 'd', 'e'], 7, 2, 2⟩

/-- The configuration of the spec's end-to-end scenario. -/
def scenarioCfg : ParsingConfig := ⟨2500, 2000, 3000⟩

def bookOneMarker : List Char := ("BOOK I").data

def chapterOneMarker : List Char := ("CHAPTER I").data

/-- A malformed response in which only the translation and context fields
can be scraped: no braces, no `key_themes`, values followed by commas. -/
def c7resp : List Char := ("\"modern_translation\": \"M\", \"context\": \"C\",").data

theorem joinSep_length (sep : List Char) : ∀ ps : List (List Char),
    (joinSep sep ps).length = (ps.map List.length).sum + sep.length * (ps.length - 1)
  | [] => by simp [joinSep]
  | [x] => by simp [joinSep]
  | x :: y :: t => by
    have ih := joinSep_length sep (y :: t)
    simp only [joinSep, List.length_append, List.map_cons, List.sum_cons,
      List.length_cons, Nat.add_sub_cancel, Nat.mul_succ] at ih ⊢
    omega

/-- Case analysis of one pass of `create_chunks`' loop body: the two book
branches, the two chapter branches and the three ordinary-paragraph
branches, each with its guard and the resulting state. -/
theorem stepPara_spec (cfg : ParsingConfig) (st : ChunkState) (p : List Char) :
    (∃ nm, book_marker_numeral p = some nm ∧ st.current_chunk = [] ∧
      stepPara cfg st p = { st with current_book := roman_to_int nm }) ∨
    (∃ nm, book_marker_numeral p = some nm ∧ st.current_chunk ≠ [] ∧
      stepPara cfg st p = { flushState st with current_book := roman_to_int nm }) ∨
    (∃ nm, book_marker_numeral p = none ∧ chapter_marker_numeral p = some nm ∧
      ¬(st.current_chunk ≠ [] ∧ cfg.min_size ≤ st.current_size) ∧
      stepPara cfg st p = { st with current_chapter := roman_to_int nm }) ∨
    (∃ nm, book_marker_numeral p = none ∧ chapter_marker_numeral p = some nm ∧
      (st.current_chunk ≠ [] ∧ cfg.min_size ≤ st.current_size) ∧
      stepPara cfg st p = { flushState st with current_chapter := roman_to_int nm }) ∨
    (book_marker_numeral p = none ∧ chapter_marker_numeral p = none ∧
      (cfg.max_size < st.current_size + p.length ∧ st.current_chunk ≠ []) ∧
      stepPara cfg st p =
        { flushState st with current_chunk := [p], current_size := p.length }) ∨
    (book_marker_numeral p = none ∧ chapter_marker_numeral p = none ∧
      ¬(cfg.max_size < st.current_size + p.length ∧ st.current_chunk ≠ []) ∧
      (cfg.target_size ≤ st.current_size + p.length ∧ cfg.min_size ≤ st.current_size) ∧
      stepPara cfg st p = flushState { st with current_chunk := st.current_chunk ++ [p] }) ∨
    (book_marker_numeral p = none ∧ chapter_marker_numeral p = none ∧
      ¬(cfg.max_size < st.current_size + p.length ∧ st.current_chunk ≠ []) ∧
      ¬(cfg.target_size ≤ st.current_size + p.length ∧ cfg.min_size ≤ st.current_size) ∧
      stepPara cfg st p =
        { st with current_chunk := st.current_chunk ++ [p], current_size := st.current_size + p.length }) := by
  cases hb : book_marker_numeral p with
  | some nm =>
    by_cases hcur : st.current_chunk = []
    · exact Or.inl ⟨nm, rfl, hcur, by simp [stepPara, hb, hcur]⟩
    · exact Or.inr (Or.inl ⟨nm, rfl, hcur, by simp [stepPara, hb, hcur]⟩)
  | none =>
    cases hc : chapter_marker_numeral p with
    | some nm =>
      by_cases hcond : st.current_chunk ≠ [] ∧ cfg.min_size ≤ st.current_size
      · exact Or.inr (Or.inr (Or.inr (Or.inl ⟨nm, rfl, rfl, hcond,
          by simp [stepPara, hb, hc, hcond]⟩)))
      · exact Or.inr (Or.inr (Or.inl ⟨nm, rfl, rfl, hcond,
          by simp [stepPara, hb, hc, hcond]⟩))
    | none =>
      by_cases h1 : cfg.max_size < st.current_size + p.length ∧ st.current_chunk ≠ []
      · refine Or.inr (Or.inr (Or.inr (Or.inr (Or.inl ⟨rfl, rfl, h1, ?_⟩))))
        simp [stepPara, hb, hc, h1]
      · by_cases h2 : cfg.target_size ≤ st.current_size + p.length ∧
            cfg.min_size ≤ st.current_size
        · refine Or.inr (Or.inr (Or.inr (Or.inr (Or.inr (Or.inl ⟨rfl, rfl, h1, h2, ?_⟩)))))
          simp [stepPara, hb, hc, h1, h2]
        · refine Or.inr (Or.inr (Or.inr (Or.inr (Or.inr (Or.inr ⟨rfl, rfl, h1, h2, ?_⟩)))))
          simp [stepPara, hb, hc, h1, h2]

theorem step_coverage (cfg : ParsingConfig) (st : ChunkState) (p : List Char) :
    ((stepPara cfg st p).chunks.map Chunk.paragraphs).flatten ++
      (stepPara cfg st p).current_chunk
    = (st.chunks.map Chunk.paragraphs).flatten ++ st.current_chunk ++
      (if ordinaryPara p then [p] else []) := by
  rcases stepPara_spec cfg st p with
    ⟨nm, hb, hcur, hstep⟩ | ⟨nm, hb, hcur, hstep⟩ | ⟨nm, hb, hc, hg, hstep⟩ |
    ⟨nm, hb, hc, hg, hstep⟩ | ⟨hb, hc, hg, hstep⟩ | ⟨hb, hc, hg1, hg2, hstep⟩ |
    ⟨hb, hc, hg1, hg2, hstep⟩
  · rw [hstep]; simp [ordinaryPara, hb, hcur]
  · rw [hstep]; simp [flushState, _finalize_chunk, ordinaryPara, hb]
  · rw [hstep]; simp [ordinaryPara, hb, hc]
  · rw [hstep]; simp [flushState, _finalize_chunk, ordinaryPara, hb, hc]
  · rw [hstep]; simp [flushState, _finalize_chunk, ordinaryPara, hb, hc]
  · rw [hstep]; simp [flushState, _finalize_chunk, ordinaryPara, hb, hc]
  · rw [hstep]; simp [ordinaryPara, hb, hc, List.append_assoc]

theorem fold_coverage (cfg : ParsingConfig) (paras : List (List Char)) :
    ∀ st : ChunkState,
    ((paras.foldl (stepPara cfg) st).chunks.map Chunk.paragraphs).flatten ++
      (paras.foldl (stepPara cfg) st).current_chunk
    = (st.chunks.map Chunk.paragraphs).flatten ++ st.current_chunk ++
      paras.filter ordinaryPara := by
  induction paras with
  | nil => intro st; simp
  | cons p rest ih =>
    intro st
    simp only [List.foldl_cons, List.filter_cons]
    rw [ih (stepPara cfg st p), step_coverage]
    by_cases h : ordinaryPara p <;> simp [h, List.append_assoc]

theorem step_indices (cfg : ParsingConfig) (st : ChunkState) (p : List Char)
    (h : st.chunks.map Chunk.chunk_index = List.range st.chunks.length) :
    (stepPara cfg st p).chunks.map Chunk.chunk_index =
      List.range (stepPara cfg st p).chunks.length := by
  rcases stepPara_spec cfg st p with
    ⟨nm, hb, hcur, hstep⟩ | ⟨nm, hb, hcur, hstep⟩ | ⟨nm, hb, hc, hg, hstep⟩ |
    ⟨nm, hb, hc, hg, hstep⟩ | ⟨hb, hc, hg, hstep⟩ | ⟨hb, hc, hg1, hg2, hstep⟩ |
    ⟨hb, hc, hg1, hg2, hstep⟩ <;>
  rw [hstep] <;>
  simp [flushState, _finalize_chunk, List.range_succ, h]

theorem fold_indices (cfg : ParsingConfig) (paras : List (List Char)) :
    ∀ st : ChunkState,
    st.chunks.map Chunk.chunk_index = List.range st.chunks.length →
    (paras.foldl (stepPara cfg) st).chunks.map Chunk.chunk_index =
      List.range (paras.foldl (stepPara cfg) st).chunks.length := by
  induction paras with
  | nil => intro st h; simpa using h
  | cons p rest ih =>
    intro st h
    simp only [List.foldl_cons]
    exact ih (stepPara cfg st p) (step_indices cfg st p h)

/-- C1.  For every input text, `create_chunks` assigns `chunk_index` values
0, 1, 2, ... in emission order (strictly increasing, no gaps), and the
concatenation of the passages' paragraph sequences, in index order, is
exactly the sequence of non-marker paragraphs of the input: only the
book/chapter marker paragraphs are removed, and no ordinary paragraph is
duplicated or dropped. -/
theorem create_chunks_indices_and_coverage (cfg : ParsingConfig) (text : List Char) :
    (create_chunks cfg text).map Chunk.chunk_index =
      List.range (create_chunks cfg text).length ∧
    ((create_chunks cfg text).map Chunk.paragraphs).flatten =
      (split_into_paragraphs text).filter ordinaryPara := by
  unfold create_chunks chunk_paragraphs finishState
  have hidx := fold_indices cfg (split_into_paragraphs text) initState (by simp [initState])
  have hcov := fold_coverage cfg (split_into_paragraphs text) initState
  simp only [show initState.chunks = [] from rfl,
    show initState.current_chunk = [] from rfl,
    List.map_nil, List.flatten_nil, List.nil_append] at hcov
  by_cases h : ((split_into_paragraphs text).foldl (stepPara cfg) initState).current_chunk = []
  · rw [h, List.append_nil] at hcov
    rw [if_pos h]
    exact ⟨hidx, hcov⟩
  · rw [if_neg h]
    constructor
    · simp [flushState, _finalize_chunk, List.range_succ, hidx]
    · simp only [flushState, List.map_append, List.flatten_append, _finalize_chunk,
        List.map_cons, List.map_nil, List.flatten_cons, List.flatten_nil, List.append_nil]
      exact hcov

/-- C9.  `roman_to_int` implements the right-to-left subtractive scan with the
standard symbol values; in particular it decodes the listed numerals as
claimed and performs no validation: the non-canonical "IIII" yields 4 rather
than an error. -/
theorem roman_to_int_values :
    roman_to_int ['I'] = 1 ∧ roman_to_int ['I', 'V'] = 4 ∧
    roman_to_int ['I', 'X'] = 9 ∧ roman_to_int ['X', 'L'] = 40 ∧
    roman_to_int ("MCMXCIX").data = 1999 ∧
    roman_to_int ['I', 'I', 'I', 'I'] = 4 := by
  refine ⟨by decide, by decide, by decide, by decide, by decide, by decide⟩

theorem step_books (cfg : ParsingConfig) (st : ChunkState) (p : List Char) :
    ((stepPara cfg st p).chunks.map
        (fun c => c.paragraphs.map (fun q => (q, c.book)))).flatten ++
      (stepPara cfg st p).current_chunk.map
        (fun q => (q, (stepPara cfg st p).current_book))
    = (st.chunks.map (fun c => c.paragraphs.map (fun q => (q, c.book)))).flatten ++
      st.current_chunk.map (fun q => (q, st.current_book)) ++
      (if ordinaryPara p then [(p, st.current_book)] else []) := by
  rcases stepPara_spec cfg st p with
    ⟨nm, hb, hcur, hstep⟩ | ⟨nm, hb, hcur, hstep⟩ | ⟨nm, hb, hc, hg, hstep⟩ |
    ⟨nm, hb, hc, hg, hstep⟩ | ⟨hb, hc, hg, hstep⟩ | ⟨hb, hc, hg1, hg2, hstep⟩ |
    ⟨hb, hc, hg1, hg2, hstep⟩
  · rw [hstep]; simp [ordinaryPara, hb, hcur]
  · rw [hstep]; simp [flushState, _finalize_chunk, ordinaryPara, hb]
  · rw [hstep]; simp [ordinaryPara, hb, hc]
  · rw [hstep]; simp [flushState, _finalize_chunk, ordinaryPara, hb, hc]
  · rw [hstep]; simp [flushState, _finalize_chunk, ordinaryPara, hb, hc]
  · rw [hstep]; simp [flushState, _finalize_chunk, ordinaryPara, hb, hc]
  · rw [hstep]; simp [ordinaryPara, hb, hc, List.append_assoc]

theorem pwb_step (cfg : ParsingConfig) (st : ChunkState) (p : List Char)
    (rest : List (List Char)) :
    paras_with_books st.current_book (p :: rest)
    = (if ordinaryPara p then [(p, st.current_book)] else []) ++
      paras_with_books (stepPara cfg st p).current_book rest := by
  rcases stepPara_spec cfg st p with
    ⟨nm, hb, hcur, hstep⟩ | ⟨nm, hb, hcur, hstep⟩ | ⟨nm, hb, hc, hg, hstep⟩ |
    ⟨nm, hb, hc, hg, hstep⟩ | ⟨hb, hc, hg, hstep⟩ | ⟨hb, hc, hg1, hg2, hstep⟩ |
    ⟨hb, hc, hg1, hg2, hstep⟩
  · rw [hstep]; simp [paras_with_books, ordinaryPara, hb]
  · rw [hstep]; simp [paras_with_books, ordinaryPara, hb, flushState]
  · rw [hstep]; simp [paras_with_books, ordinaryPara, hb, hc]
  · rw [hstep]; simp [paras_with_books, ordinaryPara, hb, hc, flushState]
  · rw [hstep]; simp [paras_with_books, ordinaryPara, hb, hc, flushState]
  · rw [hstep]; simp [paras_with_books, ordinaryPara, hb, hc, flushState]
  · rw [hstep]; simp [paras_with_books, ordinaryPara, hb, hc]

theorem fold_books (cfg : ParsingConfig) (paras : List (List Char)) :
    ∀ st : ChunkState,
    ((paras.foldl (stepPara cfg) st).chunks.map
        (fun c => c.paragraphs.map (fun q => (q, c.book)))).flatten ++
      (paras.foldl (stepPara cfg) st).current_chunk.map
        (fun q => (q, (paras.foldl (stepPara cfg) st).current_book))
    = (st.chunks.map (fun c => c.paragraphs.map (fun q => (q, c.book)))).flatten ++
      st.current_chunk.map (fun q => (q, st.current_book)) ++
      paras_with_books st.current_book paras := by
  induction paras with
  | nil => intro st; simp [paras_with_books]
  | cons p rest ih =>
    intro st
    simp only [List.foldl_cons]
    rw [ih (stepPara cfg st p), step_books, pwb_step cfg st p rest]
    by_cases h : ordinaryPara p <;> simp [h, List.append_assoc]

/-- C6.  A passage never mixes books: pairing every paragraph of every
emitted chunk with that chunk's `book` tag and concatenating in index order
yields exactly the paragraphs of the input, each paired with the book number
in effect where it occurs (book markers always flush the accumulator before
the book number changes). -/
theorem create_chunks_single_book (cfg : ParsingConfig) (text : List Char) :
    ((create_chunks cfg text).map
        (fun c => c.paragraphs.map (fun q => (q, c.book)))).flatten
    = paras_with_books 1 (split_into_paragraphs text) := by
  unfold create_chunks chunk_paragraphs finishState
  have h := fold_books cfg (split_into_paragraphs text) initState
  simp only [show initState.chunks = ([] : List Chunk) from rfl,
    show initState.current_chunk = ([] : List (List Char)) from rfl,
    show initState.current_book = (1 : Int) from rfl,
    List.map_nil, List.flatten_nil, List.nil_append] at h
  by_cases hc :
      ((split_into_paragraphs text).foldl (stepPara cfg) initState).current_chunk = []
  · rw [if_pos hc]
    rw [hc] at h
    simpa using h
  · rw [if_neg hc]
    simp only [flushState, List.map_append, List.flatten_append, _finalize_chunk,
      List.map_cons, List.map_nil, List.flatten_cons, List.flatten_nil,
      List.append_nil]
    exact h

theorem finalize_size_ok (cfg : ParsingConfig) (ps : List (List Char))
    (b ch : Int) (n : Nat)
    (h : ps.length ≤ 1 ∨ sumLens ps ≤ cfg.max_size) :
    (_finalize_chunk ps b ch n).paragraph_count = 1 ∨
    (_finalize_chunk ps b ch n).character_count ≤
      cfg.max_size + 2 * ((_finalize_chunk ps b ch n).paragraph_count - 1) := by
  have hlen := joinSep_length ['\n', '\n'] ps
  simp only [List.length_cons, List.length_nil] at hlen
  rcases h with h | h
  · rcases ps with _ | ⟨x, _ | ⟨y, t⟩⟩
    · right; simp [_finalize_chunk, joinSep]
    · left; simp [_finalize_chunk]
    · exfalso; simp only [List.length_cons] at h; omega
  · right
    simp only [_finalize_chunk, hlen]
    simp only [sumLens] at h
    omega

theorem step_size_inv (cfg : ParsingConfig) (st : ChunkState) (p : List Char)
    (h1 : st.current_size = sumLens st.current_chunk)
    (h2 : st.current_chunk.length ≤ 1 ∨ sumLens st.current_chunk ≤ cfg.max_size)
    (h3 : ∀ c ∈ st.chunks, c.paragraph_count = 1 ∨
      c.character_count ≤ cfg.max_size + 2 * (c.paragraph_count - 1)) :
    ((stepPara cfg st p).current_size = sumLens (stepPara cfg st p).current_chunk) ∧
    ((stepPara cfg st p).current_chunk.length ≤ 1 ∨
      sumLens (stepPara cfg st p).current_chunk ≤ cfg.max_size) ∧
    (∀ c ∈ (stepPara cfg st p).chunks, c.paragraph_count = 1 ∨
      c.character_count ≤ cfg.max_size + 2 * (c.paragraph_count - 1)) := by
  have hflush : ∀ c ∈ (flushState st).chunks, c.paragraph_count = 1 ∨
      c.character_count ≤ cfg.max_size + 2 * (c.paragraph_count - 1) := by
    intro c hcmem
    simp only [flushState, List.mem_append, List.mem_singleton] at hcmem
    rcases hcmem with hcmem | rfl
    · exact h3 c hcmem
    · exact finalize_size_ok cfg _ _ _ _ h2
  rcases stepPara_spec cfg st p with
    ⟨nm, hb, hcur, hstep⟩ | ⟨nm, hb, hcur, hstep⟩ | ⟨nm, hb, hc, hg, hstep⟩ |
    ⟨nm, hb, hc, hg, hstep⟩ | ⟨hb, hc, hg, hstep⟩ | ⟨hb, hc, hg1, hg2, hstep⟩ |
    ⟨hb, hc, hg1, hg2, hstep⟩ <;> rw [hstep]
  · exact ⟨h1, h2, h3⟩
  · exact ⟨by simp [flushState, sumLens], by simp [flushState, sumLens], hflush⟩
  · exact ⟨h1, h2, h3⟩
  · exact ⟨by simp [flushState, sumLens], by simp [flushState, sumLens], hflush⟩
  · refine ⟨by simp [flushState, sumLens], by simp [flushState], hflush⟩
  · refine ⟨by simp [flushState, sumLens], by simp [flushState, sumLens], ?_⟩
    intro c hcmem
    simp only [flushState, List.mem_append, List.mem_singleton] at hcmem
    rcases hcmem with hcmem | rfl
    · exact h3 c hcmem
    · apply finalize_size_ok
      by_cases hemp : st.current_chunk = []
      · left; simp [hemp]
      · right
        have hle : st.current_size + p.length ≤ cfg.max_size := by
          rcases Nat.lt_or_ge cfg.max_size (st.current_size + p.length) with hlt | hge
          · exact absurd ⟨hlt, hemp⟩ hg1
          · exact hge
        simp only [sumLens, List.map_append, List.sum_append, List.map_cons,
          List.sum_cons, List.map_nil, List.sum_nil]
        simp only [sumLens] at h1
        omega
  · refine ⟨?_, ?_, h3⟩
    · simp only [sumLens, List.map_append, List.sum_append, List.map_cons,
        List.sum_cons, List.map_nil, List.sum_nil]
      simp only [sumLens] at h1
      omega
    · by_cases hemp : st.current_chunk = []
      · left; simp [hemp]
      · right
        have hle : st.current_size + p.length ≤ cfg.max_size := by
          rcases Nat.lt_or_ge cfg.max_size (st.current_size + p.length) with hlt | hge
          · exact absurd ⟨hlt, hemp⟩ hg1
          · exact hge
        simp only [sumLens, List.map_append, List.sum_append, List.map_cons,
          List.sum_cons, List.map_nil, List.sum_nil]
        simp only [sumLens] at h1
        omega

theorem fold_size_inv (cfg : ParsingConfig) (paras : List (List Char)) :
    ∀ st : ChunkState,
    (st.current_size = sumLens st.current_chunk) →
    (st.current_chunk.length ≤ 1 ∨ sumLens st.current_chunk ≤ cfg.max_size) →
    (∀ c ∈ st.chunks, c.paragraph_count = 1 ∨
      c.character_count ≤ cfg.max_size + 2 * (c.paragraph_count - 1)) →
    ((paras.foldl (stepPara cfg) st).current_chunk.length ≤ 1 ∨
      sumLens (paras.foldl (stepPara cfg) st).current_chunk ≤ cfg.max_size) ∧
    (∀ c ∈ (paras.foldl (stepPara cfg) st).chunks, c.paragraph_count = 1 ∨
      c.character_count ≤ cfg.max_size + 2 * (c.paragraph_count - 1)) := by
  induction paras with
  | nil => intro st h1 h2 h3; exact ⟨h2, h3⟩
  | cons p rest ih =>
    intro st h1 h2 h3
    simp only [List.foldl_cons]
    obtain ⟨g1, g2, g3⟩ := step_size_inv cfg st p h1 h2 h3
    exact ih (stepPara cfg st p) g1 g2 g3

theorem create_chunks_size_all (cfg : ParsingConfig) (text : List Char) :
    ∀ c ∈ create_chunks cfg text, c.paragraph_count = 1 ∨
      c.character_count ≤ cfg.max_size + 2 * (c.paragraph_count - 1) := by
  unfold create_chunks chunk_paragraphs finishState
  obtain ⟨h2, h3⟩ := fold_size_inv cfg (split_into_paragraphs text) initState
    (by simp [initState, sumLens]) (by simp [initState]) (by simp [initState])
  by_cases hc :
      ((split_into_paragraphs text).foldl (stepPara cfg) initState).current_chunk = []
  · rw [if_pos hc]; exact h3
  · rw [if_neg hc]
    intro c hcmem
    simp only [flushState, List.mem_append, List.mem_singleton] at hcmem
    rcases hcmem with hcmem | rfl
    · exact h3 c hcmem
    · exact finalize_size_ok cfg _ _ _ _ h2

/-- C3 (amended).  With `min_size ≤ target_size ≤ max_size`, every passage
except possibly the last satisfies
`character_count ≤ max_size + 2 * (paragraph_count - 1)` — the loop bounds
the sum of the paragraph lengths by `max_size`, but `character_count` also
counts the two-character blank-line joiners — unless the passage is a single
paragraph (which alone may exceed `max_size`). -/
theorem create_chunks_size_soft_bound (cfg : ParsingConfig) (text : List Char)
    (hmt : cfg.min_size ≤ cfg.target_size) (htM : cfg.target_size ≤ cfg.max_size) :
    ∀ c ∈ (create_chunks cfg text).dropLast,
      c.paragraph_count = 1 ∨
      c.character_count ≤ cfg.max_size + 2 * (c.paragraph_count - 1) :=
  fun c hc => create_chunks_size_all cfg text c (List.mem_of_mem_dropLast hc)

/-- Witness for C3 (amended) at a concrete input. -/
theorem create_chunks_size_soft_bound_witness :
    ((2 : Nat) ≤ 4 ∧ (4 : Nat) ≤ 6 ∧ sampleChunk ∈ (create_chunks sampleCfg sampleText).dropLast) ∧
    (sampleChunk.paragraph_count = 1 ∨
      sampleChunk.character_count ≤ 6 + 2 * (sampleChunk.paragraph_count - 1)) := by
  refine ⟨⟨by decide, by decide, by decide⟩, ?_⟩
  exact create_chunks_size_soft_bound sampleCfg sampleText (by decide) (by decide)
    sampleChunk (by decide)

/-- Counterexample to C3 as stated: with target 4, minimum 2, maximum 6, the
text "ab\n\ncde\n\nx" produces a non-final passage of 7 > 6 characters that
has two paragraphs, each of length at most 6 — so the single-oversized-
paragraph exemption does not apply. -/
theorem create_chunks_size_bound_counterexample :
    (2 : Nat) ≤ 4 ∧ (4 : Nat) ≤ 6 ∧
    sampleChunk ∈ (create_chunks sampleCfg sampleText).dropLast ∧
    6 < sampleChunk.character_count ∧
    sampleChunk.paragraph_count ≠ 1 ∧
    (∀ q ∈ sampleChunk.paragraphs, q.length ≤ 6) := by decide

/-- C4 (amended).  On a book-marker paragraph the loop flushes a non-empty
accumulator as a passage tagged with the book and chapter in effect before
the marker, empties the accumulator, updates the book number to the decoded
numeral, leaves the chapter number unchanged (the source does not reset it),
and adds the marker text to no passage. -/
theorem book_marker_step (cfg : ParsingConfig) (st : ChunkState)
    (para nm : List Char) (h : book_marker_numeral para = some nm) :
    (stepPara cfg st para).current_book = roman_to_int nm ∧
    (stepPara cfg st para).current_chapter = st.current_chapter ∧
    (stepPara cfg st para).current_chunk = [] ∧
    (stepPara cfg st para).chunks =
      (if st.current_chunk = [] then st.chunks
       else st.chunks ++ [_finalize_chunk st.current_chunk st.current_book
         st.current_chapter st.chunks.length]) := by
  by_cases hcur : st.current_chunk = []
  · rw [if_pos hcur]
    refine ⟨by simp [stepPara, h, hcur], by simp [stepPara, h, hcur],
      by simp [stepPara, h, hcur], by simp [stepPara, h, hcur]⟩
  · rw [if_neg hcur]
    refine ⟨by simp [stepPara, h, hcur], by simp [stepPara, h, hcur, flushState],
      by simp [stepPara, h, hcur, flushState],
      by simp [stepPara, h, hcur, flushState]⟩

/-- Witness for C4 (amended): a book marker with chapter context 7 keeps
chapter 7 and flushes the pending paragraph with the pre-marker context. -/
theorem book_marker_step_witness :
    book_marker_numeral ("BOOK II").data = some ['I', 'I'] ∧
    (stepPara sampleCfg ⟨[], [['x']], 1, 3, 7⟩ ("BOOK II").data).current_book = 2 ∧
    (stepPara sampleCfg ⟨[], [['x']], 1, 3, 7⟩ ("BOOK II").data).current_chapter = 7 ∧
    (stepPara sampleCfg ⟨[], [['x']], 1, 3, 7⟩ ("BOOK II").data).current_chunk = [] ∧
    (stepPara sampleCfg ⟨[], [['x']], 1, 3, 7⟩ ("BOOK II").data).chunks =
      [_finalize_chunk [['x']] 3 7 0] := by
  have h := book_marker_step sampleCfg ⟨[], [['x']], 1, 3, 7⟩ ("BOOK II").data
    ['I', 'I'] (by decide)
  refine ⟨by decide, ?_, h.2.1, h.2.2.1, ?_⟩
  · rw [h.1]; decide
  · rw [h.2.2.2]; decide

/-- Counterexample to C4 as stated: after "CHAPTER V" sets the chapter to 5,
the book marker "BOOK II" does not reset the chapter to 1, so the following
passage is tagged chapter 5. -/
theorem book_marker_chapter_not_reset_counterexample :
    (create_chunks sampleCfg ("CHAPTER V\n\nBOOK II\n\nxyz").data).map Chunk.chapter
      = [5] ∧ (5 : Int) ≠ 1 := by decide

/-- The spec's end-to-end scenario, settled against the loop: "BOOK I", a
2600-character ordinary paragraph, "CHAPTER I", then a 400-character ordinary
paragraph, with target 2500, minimum 2000, maximum 3000.  The chapter marker
finds a 2600-character accumulator that already meets `min_size`, so it
flushes; the run produces two passages, both tagged book 1, chapter 1. -/
theorem scenario_two_passages (p1 p2 : List Char)
    (hb1 : book_marker_numeral p1 = none) (hc1 : chapter_marker_numeral p1 = none)
    (hb2 : book_marker_numeral p2 = none) (hc2 : chapter_marker_numeral p2 = none)
    (h1 : p1.length = 2600) (h2 : p2.length = 400) :
    chunk_paragraphs scenarioCfg [bookOneMarker, p1, chapterOneMarker, p2]
      = [_finalize_chunk [p1] 1 1 0, _finalize_chunk [p2] 1 1 1] := by
  have e0 : stepPara scenarioCfg initState bookOneMarker = initState := by decide
  have e1 : stepPara scenarioCfg initState p1 = ⟨[], [p1], 0 + p1.length, 1, 1⟩ := by
    simp only [stepPara, hb1, hc1]
    rw [if_neg, if_neg]
    · simp [initState]
    · intro hx
      have hy := hx.2
      simp only [initState] at hy
      exact absurd hy (by decide)
    · intro hx
      exact hx.2 rfl
  have e2 : stepPara scenarioCfg ⟨[], [p1], 0 + p1.length, 1, 1⟩ chapterOneMarker
      = ⟨[_finalize_chunk [p1] 1 1 0], [], 0, 1, 1⟩ := by
    have hbk : book_marker_numeral chapterOneMarker = none := by decide
    have hch : chapter_marker_numeral chapterOneMarker = some ['I'] := by decide
    simp only [stepPara, hbk, hch]
    rw [if_pos]
    · simp [flushState, show roman_to_int ['I'] = (1 : Int) from by decide]
    · constructor
      · simp
      · show scenarioCfg.min_size ≤ 0 + p1.length
        rw [h1]
        decide
  have e3 : stepPara scenarioCfg ⟨[_finalize_chunk [p1] 1 1 0], [], 0, 1, 1⟩ p2
      = ⟨[_finalize_chunk [p1] 1 1 0], [p2], 0 + p2.length, 1, 1⟩ := by
    simp only [stepPara, hb2, hc2]
    rw [if_neg, if_neg]
    · simp
    · intro hx
      have hy := hx.1
      rw [h2] at hy
      exact absurd hy (by decide)
    · intro hx
      exact hx.2 rfl
  unfold chunk_paragraphs finishState
  simp only [List.foldl_cons, List.foldl_nil]
  rw [e0, e1, e2, e3]
  rw [if_neg (by simp)]
  simp [flushState]

/-- C2 (amended).  The spec's scenario input in fact yields exactly two
passages, not one: the chapter marker flushes the 2600-character accumulator
because it already meets `min_size = 2000`; both passages are tagged
book 1, chapter 1. -/
theorem scenario_emits_two_passages (p1 p2 : List Char)
    (hb1 : book_marker_numeral p1 = none) (hc1 : chapter_marker_numeral p1 = none)
    (hb2 : book_marker_numeral p2 = none) (hc2 : chapter_marker_numeral p2 = none)
    (h1 : p1.length = 2600) (h2 : p2.length = 400) :
    chunk_paragraphs scenarioCfg [bookOneMarker, p1, chapterOneMarker, p2]
      = [_finalize_chunk [p1] 1 1 0, _finalize_chunk [p2] 1 1 1] :=
  scenario_two_passages p1 p2 hb1 hc1 hb2 hc2 h1 h2

set_option maxRecDepth 40000 in
/-- Witness for C2 (amended), at 2600 copies of 'a' and 400 copies of 'b'. -/
theorem scenario_emits_two_passages_witness :
    (book_marker_numeral (List.replicate 2600 'a') = none ∧
     chapter_marker_numeral (List.replicate 2600 'a') = none ∧
     book_marker_numeral (List.replicate 400 'b') = none ∧
     chapter_marker_numeral (List.replicate 400 'b') = none ∧
     (List.replicate 2600 'a').length = 2600 ∧
     (List.replicate 400 'b').length = 400) ∧
    chunk_paragraphs scenarioCfg
        [bookOneMarker, List.replicate 2600 'a', chapterOneMarker,
          List.replicate 400 'b']
      = [_finalize_chunk [List.replicate 2600 'a'] 1 1 0,
         _finalize_chunk [List.replicate 400 'b'] 1 1 1] := by
  refine ⟨⟨by decide, by decide, by decide, by decide, by simp, by simp⟩, ?_⟩
  exact scenario_emits_two_passages (List.replicate 2600 'a') (List.replicate 400 'b')
    (by decide) (by decide) (by decide) (by decide) (by simp) (by simp)

set_option maxRecDepth 40000 in
/-- Counterexample to C2 as stated: on the scenario input the loop emits two
passages, not exactly one. -/
theorem scenario_single_passage_counterexample :
    (chunk_paragraphs scenarioCfg
        [bookOneMarker, List.replicate 2600 'a', chapterOneMarker,
          List.replicate 400 'b']).length = 2 ∧ (2 : Nat) ≠ 1 := by
  constructor
  · rw [scenario_two_passages (List.replicate 2600 'a') (List.replicate 400 'b')
      (by decide) (by decide) (by decide) (by decide) (by simp) (by simp)]
    rfl
  · decide

theorem pyMax_is_ub : ∀ (ys : List Int) (x : Int),
    x ≤ pyMax x ys ∧ ∀ y ∈ ys, y ≤ pyMax x ys := by
  intro ys
  induction ys with
  | nil => intro x; exact ⟨le_refl x, by simp⟩
  | cons y t ih =>
    intro x
    have h := ih (max x y)
    refine ⟨le_trans (le_max_left x y) h.1, ?_⟩
    intro z hz
    rcases List.mem_cons.mp hz with rfl | hz
    · exact le_trans (le_max_right x z) h.1
    · exact h.2 z hz

/-- C10.  `get_next_chunk_to_publish` is total (the model covers the absent
file, the empty published list and any read exception) and returns 0 in those
three cases; for a non-empty published list it returns the maximum published
`chunk_index` plus one, which is strictly above every published index, so any
unpublished index below the largest published index is never selected. -/
theorem get_next_chunk_to_publish_spec :
    get_next_chunk_to_publish .absent = 0 ∧
    get_next_chunk_to_publish .readError = 0 ∧
    get_next_chunk_to_publish (.ok []) = 0 ∧
    ∀ (i : Int) (rest : List Int),
      get_next_chunk_to_publish (.ok (i :: rest)) = pyMax i rest + 1 ∧
      (∀ j ∈ i :: rest, j < get_next_chunk_to_publish (.ok (i :: rest))) ∧
      (∀ k : Int, k < pyMax i rest → get_next_chunk_to_publish (.ok (i :: rest)) ≠ k) := by
  refine ⟨rfl, rfl, rfl, ?_⟩
  intro i rest
  have hub := pyMax_is_ub rest i
  refine ⟨rfl, ?_, ?_⟩
  · intro j hj
    show j < pyMax i rest + 1
    rcases List.mem_cons.mp hj with rfl | hj
    · have := hub.1; omega
    · have := hub.2 j hj; omega
  · intro k hk
    show pyMax i rest + 1 ≠ k
    omega

/-- Witness for C10 at the published list `[3, 1]`. -/
theorem get_next_chunk_to_publish_spec_witness :
    ((3 : Int) ∈ ([3, 1] : List Int) ∧ (2 : Int) < pyMax 3 [1]) ∧
    (3 : Int) < get_next_chunk_to_publish (.ok [3, 1]) ∧
    get_next_chunk_to_publish (.ok [3, 1]) ≠ 2 := by
  refine ⟨⟨by decide, by decide⟩, ?_, ?_⟩
  · exact (get_next_chunk_to_publish_spec.2.2.2 3 [1]).2.1 3 (by decide)
  · exact (get_next_chunk_to_publish_spec.2.2.2 3 [1]).2.2 2 (by decide)

/-- C5: the code contradicts its own comment ("Remove trailing commas before
closing braces/brackets").  Because `clean_json_response` uses the raw
replacement `\\1` instead of the group reference `\1`, the input
`{"a": "b",}` — valid JSON except for one trailing comma before the closing
brace — is rewritten to `{"a": "b"\1`, which strict parsing rejects, instead
of the intended `{"a": "b"}`, which parses. -/
theorem clean_json_response_trailing_comma_bug :
    clean_json_response ("\x7b\"a\": \"b\",\x7d").data = ("\x7b\"a\": \"b\"\\1").data ∧
    json_loads (clean_json_response ("\x7b\"a\": \"b\",\x7d").data) = none ∧
    json_loads ("\x7b\"a\": \"b\"\x7d").data = some (Json.obj [(['a'], Json.str ['b'])]) :=
  ⟨rfl, rfl, rfl⟩

/-- C7.  The manual field scrape fails when only `context` (one of the three
target fields) matches; when exactly `modern_translation` and `context` match
it returns a mapping with exactly those two keys; and whenever strategy 1's
parse fails and the scrape succeeds, the caller stores the result as a
salvaged record (tagged `enrichment_status = 'partial'`), a constructor
distinct from a full record. -/
theorem manual_json_repair_threshold :
    (∀ t c, field_search mtKey t = none → field_search ctxKey t = some c →
      themes_search t = none → manual_json_repair t = none) ∧
    (∀ t m c, field_search mtKey t = some m → field_search ctxKey t = some c →
      themes_search t = none →
      manual_json_repair t =
        some [(mtKey, .strVal (unescape_field m)), (ctxKey, .strVal (unescape_field c))]) ∧
    (∀ t fs, json_loads (nuclear_json_clean t) = none → manual_json_repair t = some fs →
      enrich_with_nuclear_option t = .salvagedRecord fs ∧
      ∀ j, NuclearOutcome.salvagedRecord fs ≠ NuclearOutcome.fullRecord j) := by
  refine ⟨?_, ?_, ?_⟩
  · intro t c hmt hctx hkt
    simp [manual_json_repair, hmt, hctx, hkt]
  · intro t m c hmt hctx hkt
    simp [manual_json_repair, hmt, hctx, hkt]
  · intro t fs hjson hrepair
    refine ⟨by simp [enrich_with_nuclear_option, hjson, hrepair], ?_⟩
    intro j h
    exact NuclearOutcome.noConfusion h

/-- Witness for C7: a response with scrapeable translation and context
fields, no themes array and no parseable JSON object. -/
theorem manual_json_repair_threshold_witness :
    (field_search mtKey c7resp = some ['M'] ∧
     field_search ctxKey c7resp = some ['C'] ∧
     themes_search c7resp = none ∧
     json_loads (nuclear_json_clean c7resp) = none) ∧
    manual_json_repair c7resp =
      some [(mtKey, .strVal (unescape_field ['M'])),
            (ctxKey, .strVal (unescape_field ['C']))] ∧
    enrich_with_nuclear_option c7resp =
      .salvagedRecord [(mtKey, .strVal (unescape_field ['M'])),
                       (ctxKey, .strVal (unescape_field ['C']))] := by
  have hrep := manual_json_repair_threshold.2.1 c7resp ['M'] ['C'] rfl rfl rfl
  have henr := manual_json_repair_threshold.2.2 c7resp
    [(mtKey, .strVal (unescape_field ['M'])), (ctxKey, .strVal (unescape_field ['C']))]
    rfl hrep
  exact ⟨⟨rfl, rfl, rfl, rfl⟩, hrep, henr.1⟩

theorem dropWhile_head_not (p : Char → Bool) :
    ∀ (l : List Char) (d : Char) (tail : List Char),
    l.dropWhile p = d :: tail → p d = false := by
  intro l
  induction l with
  | nil => intro d tail h; simp at h
  | cons c r ih =>
    intro d tail h
    rw [List.dropWhile_cons] at h
    by_cases hc : p c
    · rw [if_pos hc] at h; exact ih d tail h
    · rw [if_neg hc] at h
      cases h
      exact Bool.not_eq_true _ ▸ (by simpa using hc)

theorem drop_takeWhile_eq_dropWhile (p : Char → Bool) :
    ∀ l : List Char, l.drop (l.takeWhile p).length = l.dropWhile p := by
  intro l
  induction l with
  | nil => simp
  | cons c r ih =>
    rw [List.takeWhile_cons, List.dropWhile_cons]
    by_cases hc : p c
    · rw [if_pos hc, if_pos hc]
      simpa using ih
    · rw [if_neg hc, if_neg hc]
      simp

theorem takeWhile_append_of_all (p : Char → Bool) :
    ∀ (w : List Char) (d : Char) (rest : List Char),
    (∀ c ∈ w, p c = true) → p d = false →
    (w ++ d :: rest).takeWhile p = w := by
  intro w
  induction w with
  | nil => intro d rest _ hd; simp [List.takeWhile_cons, hd]
  | cons c w' ih =>
    intro d rest hall hd
    have hc : p c = true := hall c (by simp)
    simp only [List.cons_append, List.takeWhile_cons, hc, if_true]
    rw [ih d rest (fun x hx => hall x (by simp [hx])) hd]

theorem dropWhile_append_of_all (p : Char → Bool) :
    ∀ (w x : List Char), (∀ c ∈ w, p c = true) →
    (w ++ x).dropWhile p = x.dropWhile p := by
  intro w
  induction w with
  | nil => intro x _; simp
  | cons c w' ih =>
    intro x hall
    have hc : p c = true := hall c (by simp)
    simp only [List.cons_append, List.dropWhile_cons, hc, if_true]
    exact ih x (fun y hy => hall y (by simp [hy]))

theorem dropTrailing_decomp (p : Char → Bool) (l : List Char) :
    ∃ b, l = dropTrailing p l ++ b ∧ ∀ c ∈ b, p c = true := by
  refine ⟨(l.reverse.takeWhile p).reverse, ?_, ?_⟩
  · unfold dropTrailing
    conv_lhs => rw [← l.reverse_reverse]
    rw [← List.reverse_append]
    congr 1
    conv_lhs => rw [← List.takeWhile_append_dropWhile (p := p) (l := l.reverse)]
  · intro c hc
    rw [List.mem_reverse] at hc
    exact List.mem_takeWhile_imp hc

theorem jsonWs_is_space (c : Char) (h : isJsonWs c = true) : is_space c = true := by
  simp only [isJsonWs, decide_eq_true_eq] at h
  simp only [is_space, decide_eq_true_eq]
  rcases h with h | h | h | h <;> simp [h]

theorem comma_scan_append (r b : List Char) (d : Char) (tail : List Char)
    (hd : r.drop (r.takeWhile is_space).length = d :: tail) :
    (r ++ b).drop ((r ++ b).takeWhile is_space).length = d :: (tail ++ b) := by
  rw [drop_takeWhile_eq_dropWhile] at hd
  have hpd : is_space d = false := dropWhile_head_not is_space r d tail hd
  have hw : r = r.takeWhile is_space ++ d :: tail := by
    conv_lhs => rw [← List.takeWhile_append_dropWhile (p := is_space) (l := r)]
    rw [hd]
  have hall : ∀ c ∈ r.takeWhile is_space, is_space c = true :=
    fun c hc => List.mem_takeWhile_imp hc
  rw [hw, List.append_assoc, List.cons_append,
    takeWhile_append_of_all is_space _ d (tail ++ b) hall hpd, List.drop_left]

theorem hasCommaClose_append_right :
    ∀ t b : List Char, hasCommaClose t = true → hasCommaClose (t ++ b) = true := by
  intro t
  induction t with
  | nil => intro b h; simp [hasCommaClose] at h
  | cons c r ih =>
    intro b h
    rw [List.cons_append]
    by_cases hc : c = ','
    · subst hc
      simp only [hasCommaClose, if_pos] at h ⊢
      rcases hd : r.drop (r.takeWhile is_space).length with _ | ⟨d, tail⟩
      · rw [hd] at h
        rcases hd2 : (r ++ b).drop ((r ++ b).takeWhile is_space).length with _ | ⟨d2, tail2⟩
        · exact ih b h
        · by_cases hbr : d2 = rbraceChar ∨ d2 = ']'
          · simp [hbr]
          · simp only [hbr, if_false]
            exact ih b h
      · rw [hd] at h
        rw [comma_scan_append r b d tail hd]
        by_cases hbr : d = rbraceChar ∨ d = ']'
        · simp [hbr]
        · simp only [hbr, if_false] at h ⊢
          exact ih b h
    · simp only [hasCommaClose, hc, if_false] at h ⊢
      exact ih b h

theorem hasCommaClose_append_left :
    ∀ a b : List Char, hasCommaClose b = true → hasCommaClose (a ++ b) = true := by
  intro a
  induction a with
  | nil => intro b h; simpa using h
  | cons c a' ih =>
    intro b h
    rw [List.cons_append]
    by_cases hc : c = ','
    · subst hc
      simp only [hasCommaClose, if_pos]
      rcases hd : (a' ++ b).drop ((a' ++ b).takeWhile is_space).length with _ | ⟨d, tail⟩
      · exact ih b h
      · by_cases hbr : d = rbraceChar ∨ d = ']'
        · simp [hbr]
        · simp only [hbr, if_false]
          exact ih b h
    · simp only [hasCommaClose, hc, if_false]
      exact ih b h

theorem commaSubBuggyAux_id :
    ∀ (f : Nat) (l : List Char), hasCommaClose l = false → commaSubBuggyAux f l = l := by
  intro f
  induction f with
  | zero => intro l _; cases l <;> rfl
  | succ f ih =>
    intro l h
    match l with
    | [] => rfl
    | c :: r =>
      by_cases hc : c = ','
      · subst hc
        simp only [hasCommaClose, if_pos] at h
        simp only [commaSubBuggyAux, if_pos]
        rcases hd : r.drop (r.takeWhile is_space).length with _ | ⟨d, tail⟩
        · rw [hd] at h
          rw [ih r h]
        · rw [hd] at h
          by_cases hbr : d = rbraceChar ∨ d = ']'
          · simp [hbr] at h
          · simp only [hbr, if_false] at h ⊢
            rw [ih r h]
      · simp only [hasCommaClose, hc, if_false] at h
        simp only [commaSubBuggyAux, hc, if_false]
        rw [ih r h]

theorem skipWs_decomp (l : List Char) : l = l.takeWhile isJsonWs ++ skipWs l :=
  (List.takeWhile_append_dropWhile (p := isJsonWs) (l := l)).symm

theorem scan_json_string_suffix :
    ∀ (n : Nat) (l : List Char), l.length ≤ n → ∀ s rest,
    scan_json_string l = some (s, rest) → rest <:+ l := by
  intro n
  induction n with
  | zero =>
    intro l hl s rest h
    cases l with
    | nil => rw [scan_json_string.eq_def] at h; simp at h
    | cons c r => simp only [List.length_cons] at hl; omega
  | succ n ih =>
    intro l hl s rest h
    cases l with
    | nil => rw [scan_json_string.eq_def] at h; simp at h
    | cons c r =>
      simp only [List.length_cons, Nat.add_le_add_iff_right] at hl
      rw [scan_json_string.eq_def] at h
      simp only [] at h
      by_cases hq : c = dquoteChar
      · rw [if_pos hq] at h
        simp only [Option.some.injEq, Prod.mk.injEq] at h
        rw [← h.2]
        exact List.suffix_cons c r
      · rw [if_neg hq] at h
        by_cases hb : c = backslashChar
        · rw [if_pos hb] at h
          cases r with
          | nil => simp at h
          | cons e r2 =>
            simp only [List.length_cons] at hl
            simp only [] at h
            by_cases hu : e = 'u'
            · rw [if_pos hu] at h
              rcases r2 with _ | ⟨x1, _ | ⟨x2, _ | ⟨x3, _ | ⟨x4, r3⟩⟩⟩⟩
              · simp at h
              · simp at h
              · simp at h
              · simp at h
              · simp only [] at h
                by_cases hhex : isHexChar x1 ∧ isHexChar x2 ∧ isHexChar x3 ∧ isHexChar x4
                · rw [if_pos hhex] at h
                  rcases hscan : scan_json_string r3 with _ | ⟨s3, rest3⟩
                  · rw [hscan] at h; simp at h
                  · rw [hscan] at h
                    simp only [Option.some.injEq, Prod.mk.injEq] at h
                    rw [← h.2]
                    exact (ih r3 (by simp only [List.length_cons] at hl; omega)
                      s3 rest3 hscan).trans ⟨[c, e, x1, x2, x3, x4], rfl⟩
                · rw [if_neg hhex] at h; simp at h
            · rw [if_neg hu] at h
              by_cases hesc : e = dquoteChar ∨ e = backslashChar ∨ e = '/' ∨ e = 'b' ∨
                  e = 'f' ∨ e = 'n' ∨ e = 'r' ∨ e = 't'
              · rw [if_pos hesc] at h
                rcases hscan : scan_json_string r2 with _ | ⟨s2, rest2⟩
                · rw [hscan] at h; simp at h
                · rw [hscan] at h
                  simp only [Option.some.injEq, Prod.mk.injEq] at h
                  rw [← h.2]
                  exact (ih r2 (by omega) s2 rest2 hscan).trans ⟨[c, e], rfl⟩
              · rw [if_neg hesc] at h; simp at h
        · rw [if_neg hb] at h
          by_cases hctl : c.toNat < 32
          · rw [if_pos hctl] at h; simp at h
          · rw [if_neg hctl] at h
            rcases hscan : scan_json_string r with _ | ⟨s1, rest1⟩
            · rw [hscan] at h; simp at h
            · rw [hscan] at h
              simp only [Option.some.injEq, Prod.mk.injEq] at h
              rw [← h.2]
              exact (ih r hl s1 rest1 hscan).trans (List.suffix_cons c r)

theorem parseRun_suffix :
    ∀ (f : Nat) (m : JMode) (l : List Char) (out : JOut) (rest : List Char),
    parseRun f m l = some (out, rest) → rest <:+ l := by
  intro f
  induction f with
  | zero =>
    intro m l out rest h
    rw [parseRun.eq_def] at h
    simp at h
  | succ f ih =>
    intro m l out rest h
    cases m with
    | value =>
      rw [parseRun.eq_def] at h
      simp only [] at h
      split at h
      · simp only [Option.some.injEq, Prod.mk.injEq] at h
        rw [← h.2]
        exact ⟨['n', 'u', 'l', 'l'], rfl⟩
      · simp only [Option.some.injEq, Prod.mk.injEq] at h
        rw [← h.2]
        exact ⟨['t', 'r', 'u', 'e'], rfl⟩
      · simp only [Option.some.injEq, Prod.mk.injEq] at h
        rw [← h.2]
        exact ⟨['f', 'a', 'l', 's', 'e'], rfl⟩
      · simp at h
      · rename_i c r _ _ _
        by_cases hq : c = dquoteChar
        · rw [if_pos hq] at h
          rcases hscan : scan_json_string r with _ | ⟨s1, rest1⟩
          · rw [hscan] at h; simp at h
          · rw [hscan] at h
            simp only [Option.some.injEq, Prod.mk.injEq] at h
            rw [← h.2]
            exact (scan_json_string_suffix r.length r le_rfl s1 rest1 hscan).trans
              (List.suffix_cons c r)
        · rw [if_neg hq] at h
          by_cases hbr : c = '['
          · rw [if_pos hbr] at h
            split at h
            · rename_i rest0 heq
              simp only [Option.some.injEq, Prod.mk.injEq] at h
              rw [← h.2]
              have h1 : rest0 <:+ skipWs r := heq ▸ List.suffix_cons ']' rest0
              exact (h1.trans (List.dropWhile_suffix isJsonWs)).trans
                (List.suffix_cons c r)
            · split at h
              · rename_i vs rest2 heq
                simp only [Option.some.injEq, Prod.mk.injEq] at h
                rw [← h.2]
                exact ((ih .elems (skipWs r) _ _ heq).trans
                  (List.dropWhile_suffix isJsonWs)).trans (List.suffix_cons c r)
              · exact absurd h (by simp)
          · rw [if_neg hbr] at h
            by_cases hob : c = lbraceChar
            · rw [if_pos hob] at h
              split at h
              · simp at h
              · rename_i d rest0 heq
                by_cases hrb : d = rbraceChar
                · rw [if_pos hrb] at h
                  simp only [Option.some.injEq, Prod.mk.injEq] at h
                  rw [← h.2]
                  have h1 : rest0 <:+ skipWs r := heq ▸ List.suffix_cons d rest0
                  exact (h1.trans (List.dropWhile_suffix isJsonWs)).trans
                    (List.suffix_cons c r)
                · rw [if_neg hrb] at h
                  split at h
                  · rename_i ms rest2 heq2
                    simp only [Option.some.injEq, Prod.mk.injEq] at h
                    rw [← h.2]
                    exact ((ih .members (skipWs r) _ _ heq2).trans
                      (List.dropWhile_suffix isJsonWs)).trans (List.suffix_cons c r)
                  · exact absurd h (by simp)
            · rw [if_neg hob] at h
              split at h
              · rename_i v rest1 heq
                simp only [Option.some.injEq, Prod.mk.injEq] at h
                rw [← h.2]
                simp only [parseNumber] at heq
                split at heq
                · simp at heq
                · simp only [Option.some.injEq, Prod.mk.injEq] at heq
                  rw [← heq.2]
                  exact List.drop_suffix _ _
              · exact absurd h (by simp)
    | elems =>
      rw [parseRun.eq_def] at h
      simp only [] at h
      split at h
      · rename_i v r heq1
        have hsr : r <:+ l := ih .value l _ _ heq1
        split at h
        · rename_i r2 heq2
          have hr2 : r2 <:+ r :=
            (heq2 ▸ List.suffix_cons ',' r2).trans (List.dropWhile_suffix isJsonWs)
          split at h
          · rename_i vs rest2 heq3
            simp only [Option.some.injEq, Prod.mk.injEq] at h
            rw [← h.2]
            exact (((ih .elems (skipWs r2) _ _ heq3).trans
              (List.dropWhile_suffix isJsonWs)).trans hr2).trans hsr
          · exact absurd h (by simp)
        · rename_i r2 heq2
          simp only [Option.some.injEq, Prod.mk.injEq] at h
          rw [← h.2]
          exact ((heq2 ▸ List.suffix_cons ']' r2).trans
            (List.dropWhile_suffix isJsonWs)).trans hsr
        · exact absurd h (by simp)
      · exact absurd h (by simp)
    | members =>
      rw [parseRun.eq_def] at h
      simp only [] at h
      split at h
      · simp at h
      · rename_i c r
        by_cases hq : c = dquoteChar
        · rw [if_pos hq] at h
          split at h
          · rename_i k r1 heqs
            have hr1 : r1 <:+ c :: r :=
              (scan_json_string_suffix r.length r le_rfl k r1 heqs).trans
                (List.suffix_cons c r)
            split at h
            · rename_i r2 heq1
              have hr2 : r2 <:+ r1 :=
                (heq1 ▸ List.suffix_cons ':' r2).trans (List.dropWhile_suffix isJsonWs)
              split at h
              · rename_i v r3 heq2
                have hr3 : r3 <:+ skipWs r2 := ih .value (skipWs r2) _ _ heq2
                have hr3' : r3 <:+ r2 := hr3.trans (List.dropWhile_suffix isJsonWs)
                split at h
                · simp at h
                · rename_i d r4 heq3
                  have hr4 : r4 <:+ r3 :=
                    (heq3 ▸ List.suffix_cons d r4).trans (List.dropWhile_suffix isJsonWs)
                  by_cases hcm : d = ','
                  · rw [if_pos hcm] at h
                    split at h
                    · rename_i ms rest2 heq4
                      simp only [Option.some.injEq, Prod.mk.injEq] at h
                      rw [← h.2]
                      exact ((((((ih .members (skipWs r4) _ _ heq4).trans
                        (List.dropWhile_suffix isJsonWs)).trans hr4).trans
                        hr3').trans hr2).trans hr1)
                    · exact absurd h (by simp)
                  · rw [if_neg hcm] at h
                    by_cases hrb : d = rbraceChar
                    · rw [if_pos hrb] at h
                      simp only [Option.some.injEq, Prod.mk.injEq] at h
                      rw [← h.2]
                      exact (((hr4.trans hr3').trans hr2).trans hr1)
                    · rw [if_neg hrb] at h
                      simp at h
              · exact absurd h (by simp)
            · exact absurd h (by simp)
          · exact absurd h (by simp)
        · rw [if_neg hq] at h
          exact absurd h (by simp)

theorem parseRun_obj_shape :
    ∀ f : Nat,
    (∀ (l : List Char) (kvs : List (List Char × Json)) (rest : List Char),
      parseRun f .value l = some (.val (.obj kvs), rest) →
      (∃ r0, l = lbraceChar :: r0) ∧ (rbraceChar :: rest) <:+ l) ∧
    (∀ (l : List Char) (ms : List (List Char × Json)) (rest : List Char),
      parseRun f .members l = some (.membersOut ms, rest) →
      (rbraceChar :: rest) <:+ l) := by
  intro f
  induction f with
  | zero =>
    constructor <;>
      (intro l kvs rest h; rw [parseRun.eq_def] at h; simp at h)
  | succ f ih =>
    constructor
    · intro l kvs rest h
      rw [parseRun.eq_def] at h
      simp only [] at h
      split at h
      · simp at h
      · simp at h
      · simp at h
      · simp at h
      · rename_i c r _ _ _
        by_cases hq : c = dquoteChar
        · rw [if_pos hq] at h
          rcases hscan : scan_json_string r with _ | ⟨s1, rest1⟩ <;>
            rw [hscan] at h <;> simp at h
        · rw [if_neg hq] at h
          by_cases hbr : c = '['
          · rw [if_pos hbr] at h
            split at h
            · simp at h
            · split at h
              · simp at h
              · simp at h
          · rw [if_neg hbr] at h
            by_cases hob : c = lbraceChar
            · rw [if_pos hob] at h
              refine ⟨⟨r, by rw [hob]⟩, ?_⟩
              split at h
              · simp at h
              · rename_i d rest0 heq
                by_cases hrb : d = rbraceChar
                · rw [if_pos hrb] at h
                  simp only [Option.some.injEq, Prod.mk.injEq, JOut.val.injEq,
                    Json.obj.injEq] at h
                  have h1 : (rbraceChar :: rest) <:+ skipWs r := by
                    rw [heq, hrb, h.2]
                  exact (h1.trans (List.dropWhile_suffix isJsonWs)).trans
                    (List.suffix_cons c r)
                · rw [if_neg hrb] at h
                  split at h
                  · rename_i ms2 rest2 heq2
                    simp only [Option.some.injEq, Prod.mk.injEq, JOut.val.injEq,
                      Json.obj.injEq] at h
                    have h1 := ih.2 (skipWs r) ms2 rest2 heq2
                    rw [h.2] at h1
                    exact (h1.trans (List.dropWhile_suffix isJsonWs)).trans
                      (List.suffix_cons c r)
                  · simp at h
            · rw [if_neg hob] at h
              split at h
              · rename_i v rest1 heq
                simp only [parseNumber] at heq
                split at heq
                · simp at heq
                · simp only [Option.some.injEq, Prod.mk.injEq] at heq
                  rw [← heq.1] at h
                  simp at h
              · simp at h
    · intro l ms rest h
      rw [parseRun.eq_def] at h
      simp only [] at h
      split at h
      · simp at h
      · rename_i c r
        by_cases hq : c = dquoteChar
        · rw [if_pos hq] at h
          split at h
          · rename_i k r1 heqs
            have hr1 : r1 <:+ c :: r :=
              (scan_json_string_suffix r.length r le_rfl k r1 heqs).trans
                (List.suffix_cons c r)
            split at h
            · rename_i r2 heq1
              have hr2 : r2 <:+ r1 :=
                (heq1 ▸ List.suffix_cons ':' r2).trans (List.dropWhile_suffix isJsonWs)
              split at h
              · rename_i v r3 heq2
                have hr3 : r3 <:+ r2 :=
                  (parseRun_suffix f .value (skipWs r2) _ _ heq2).trans
                    (List.dropWhile_suffix isJsonWs)
                split at h
                · simp at h
                · rename_i d r4 heq3
                  by_cases hcm : d = ','
                  · rw [if_pos hcm] at h
                    split at h
                    · rename_i ms2 rest2 heq4
                      simp only [Option.some.injEq, Prod.mk.injEq,
                        JOut.membersOut.injEq] at h
                      have hmem := ih.2 (skipWs r4) ms2 rest2 heq4
                      rw [h.2] at hmem
                      have hr4 : r4 <:+ r3 :=
                        (heq3 ▸ List.suffix_cons d r4).trans
                          (List.dropWhile_suffix isJsonWs)
                      exact ((((hmem.trans (List.dropWhile_suffix isJsonWs)).trans
                        hr4).trans hr3).trans hr2).trans hr1
                    · simp at h
                  · rw [if_neg hcm] at h
                    by_cases hrb : d = rbraceChar
                    · rw [if_pos hrb] at h
                      simp only [Option.some.injEq, Prod.mk.injEq,
                        JOut.membersOut.injEq] at h
                      have h1 : (rbraceChar :: rest) <:+ skipWs r3 := by
                        rw [heq3, hrb, h.2]
                      exact (((h1.trans (List.dropWhile_suffix isJsonWs)).trans
                        hr3).trans hr2).trans hr1
                    · rw [if_neg hrb] at h
                      simp at h
              · simp at h
            · simp at h
          · simp at h
        · rw [if_neg hq] at h
          simp at h

/-- C8 (amended).  For a string that is valid JSON for an object and contains
no comma-whitespace-closing-bracket sequence (`,\s*[}\]]`, which in valid
JSON can occur only inside string literals), tier 1 returns the stripped
input unchanged, so parsing after tier 1 agrees with direct parsing. -/
theorem tier1_preserves_valid_json (s : List Char) (kvs : List (List Char × Json))
    (hval : json_loads s = some (Json.obj kvs)) (hcc : hasCommaClose s = false) :
    clean_json_response s = pyStrip s ∧
    json_loads (clean_json_response s) = json_loads s := by
  simp only [json_loads] at hval
  split at hval
  case h_2 => exact absurd hval (by simp)
  case h_1 v x heq =>
    simp only [Option.some.injEq] at hval
    subst hval
    -- the parsed document
    obtain ⟨⟨r0, ht⟩, hsuf⟩ := (parseRun_obj_shape _).1 _ _ _ heq
    obtain ⟨u, hu⟩ := hsuf
    have htrev : (jsonStripEnds s).reverse = rbraceChar :: u.reverse := by
      rw [← hu]
      simp
    -- decomposition of s around the stripped document
    obtain ⟨b, hb, hball⟩ := dropTrailing_decomp isJsonWs (s.dropWhile isJsonWs)
    have hb' : List.dropWhile isJsonWs s = jsonStripEnds s ++ b := hb
    have hsdec : s = s.takeWhile isJsonWs ++ (jsonStripEnds s ++ b) := by
      conv_lhs => rw [← List.takeWhile_append_dropWhile (p := isJsonWs) (l := s)]
      rw [← hb']
    -- pyStrip s recovers exactly the stripped document
    have hlb_nsp : ¬ is_space lbraceChar = true := by decide
    have hrb_nsp : ¬ is_space rbraceChar = true := by decide
    have hstep1 : s.dropWhile is_space = jsonStripEnds s ++ b := by
      conv_lhs => rw [hsdec]
      rw [dropWhile_append_of_all is_space _ _
        (fun c hc => jsonWs_is_space c (List.mem_takeWhile_imp hc))]
      rw [ht, List.cons_append, List.dropWhile_cons, if_neg hlb_nsp]
    have hstep2 : dropTrailing is_space (jsonStripEnds s ++ b) = jsonStripEnds s := by
      unfold dropTrailing
      rw [List.reverse_append, htrev]
      rw [dropWhile_append_of_all is_space _ _
        (fun c hc => jsonWs_is_space c (hball c (List.mem_reverse.mp hc)))]
      rw [List.dropWhile_cons, if_neg hrb_nsp, ← htrev, List.reverse_reverse]
    have hps : pyStrip s = jsonStripEnds s := by
      unfold pyStrip
      rw [hstep1, hstep2]
    -- the fence removals and the brace slice are identities on the document
    have hlf : leadingFenceSub (jsonStripEnds s) = jsonStripEnds s := by
      unfold leadingFenceSub
      rw [ht]
      rw [show dropLit [backtickChar, backtickChar, backtickChar]
        (lbraceChar :: r0) = none from by
          simp [dropLit, (show ¬ backtickChar = lbraceChar from by decide)]]
    have htf : trailingFenceSub (jsonStripEnds s) = jsonStripEnds s := by
      simp only [trailingFenceSub]
      rw [htrev, List.dropWhile_cons, if_neg hrb_nsp]
      rw [show dropLit [backtickChar, backtickChar, backtickChar]
        (rbraceChar :: u.reverse) = none from by
          simp [dropLit, (show ¬ backtickChar = rbraceChar from by decide)]]
    have hps2 : pyStrip (jsonStripEnds s) = jsonStripEnds s := by
      unfold pyStrip
      rw [ht, List.dropWhile_cons, if_neg hlb_nsp, ← ht]
      unfold dropTrailing
      rw [htrev, List.dropWhile_cons, if_neg hrb_nsp, ← htrev, List.reverse_reverse]
    have hfi : firstIdxOf lbraceChar (jsonStripEnds s) = some 0 := by
      rw [ht]
      simp [firstIdxOf, List.findIdx?_cons]
    have hla : ∃ k, lastIdxOf rbraceChar (jsonStripEnds s) = some k := by
      simp only [lastIdxOf, htrev, List.findIdx?_cons]
      exact ⟨(jsonStripEnds s).length - 1 - 0, by simp⟩
    obtain ⟨k, hla⟩ := hla
    have hbs : braceSlice (jsonStripEnds s) = jsonStripEnds s := by
      unfold braceSlice
      rw [hfi, hla]
      simp
    -- the comma substitution is the identity: no such pattern occurs
    have hcct : hasCommaClose (jsonStripEnds s) = false := by
      by_contra hx
      have hx' : hasCommaClose (jsonStripEnds s) = true := by
        simpa using hx
      have h2 := hasCommaClose_append_right _ b hx'
      have h3 := hasCommaClose_append_left (s.takeWhile isJsonWs) _ h2
      rw [← hsdec] at h3
      rw [h3] at hcc
      exact absurd hcc (by simp)
    have hcs : commaSubBuggy (jsonStripEnds s) = jsonStripEnds s :=
      commaSubBuggyAux_id _ _ hcct
    -- tier 1 is the identity on the stripped input
    have hclean : clean_json_response s = jsonStripEnds s := by
      simp only [clean_json_response]
      rw [hps, hlf, htf, hps2, hbs, hcs]
    -- parsing after tier 1 agrees with direct parsing
    have hjse_a : List.dropWhile isJsonWs (jsonStripEnds s) = jsonStripEnds s := by
      rw [ht, List.dropWhile_cons, if_neg (by decide : ¬ isJsonWs lbraceChar = true)]
    have hjse_b : dropTrailing isJsonWs (jsonStripEnds s) = jsonStripEnds s := by
      unfold dropTrailing
      rw [htrev, List.dropWhile_cons,
        if_neg (by decide : ¬ isJsonWs rbraceChar = true), ← htrev,
        List.reverse_reverse]
    have hjse2 : jsonStripEnds (jsonStripEnds s) = jsonStripEnds s := by
      show dropTrailing isJsonWs (List.dropWhile isJsonWs (jsonStripEnds s)) =
        jsonStripEnds s
      rw [hjse_a, hjse_b]
    refine ⟨by rw [hclean, hps], ?_⟩
    rw [hclean]
    simp only [json_loads, hjse2, heq]

/-- Witness for C8 (amended) on a small valid JSON object. -/
theorem tier1_preserves_valid_json_witness :
    (json_loads ("\x7b\"a\": \"b\"\x7d").data = some (Json.obj [(['a'], Json.str ['b'])]) ∧
     hasCommaClose ("\x7b\"a\": \"b\"\x7d").data = false) ∧
    clean_json_response ("\x7b\"a\": \"b\"\x7d").data = pyStrip ("\x7b\"a\": \"b\"\x7d").data ∧
    json_loads (clean_json_response ("\x7b\"a\": \"b\"\x7d").data) =
      json_loads ("\x7b\"a\": \"b\"\x7d").data := by
  refine ⟨⟨rfl, rfl⟩, ?_, ?_⟩
  · exact (tier1_preserves_valid_json ("\x7b\"a\": \"b\"\x7d").data
      [(['a'], Json.str ['b'])] rfl rfl).1
  · exact (tier1_preserves_valid_json ("\x7b\"a\": \"b\"\x7d").data
      [(['a'], Json.str ['b'])] rfl rfl).2

/-- Counterexample to C8 as stated: the valid JSON object text
`{"a": ",}"}` (its string value contains a comma before a closing brace)
parses directly, but tier 1's comma substitution corrupts the string body to
an invalid escape, so parsing after tier 1 fails instead of agreeing. -/
theorem tier1_corrupts_valid_json_counterexample :
    json_loads ("\x7b\"a\": \",\x7d\"\x7d").data
      = some (Json.obj [(['a'], Json.str [',', rbraceChar])]) ∧
    json_loads (clean_json_response ("\x7b\"a\": \",\x7d\"\x7d").data) = none :=
  ⟨rfl, rfl⟩
